import Mathlib

/-!
Verification of the per-shard data-slice core of the dragonfly fragment
(src/server/db_slice.cc, src/server/table.h,
src/server/cluster/outgoing_slot_migration.cc).

The embedding models the DbSlice state the verified properties range over:
the PrimeTable as an association list from keys to entries (each entry
carrying the key's sticky bit, the PrimeValue and the bucket version the
iterator exposes), the ExpireTable as an association list from keys to
relative deadlines, the per-slice event counters, the change-callback list,
the bump set, the memory budget and the journal.  Side structures no claim
constrains (tiered storage, the mcflag table, the top-keys sketch, per-slot
statistics, client tracking) are omitted.  DashTable internals
(core/dash.h) and CompactObj internals are not part of the source fragment;
the few places where their behaviour matters are modelled from the spec and
say so in their doc comments.
-/

namespace Dragonfly

/-- Status codes returned by DbSlice operations (the facade::OpStatus subset
the modelled operations produce). -/
inductive OpStatus where
  | OK
  | KEY_NOTFOUND
  | WRONG_TYPE
  | OUT_OF_MEMORY
  | SKIPPED
  | OUT_OF_RANGE
  deriving DecidableEq, Repr

abbrev Key := String

/-- A PrimeValue: we track the object-type discriminator (ObjType()) and the
HasExpire mask bit, the two value attributes the claims range over. -/
structure PrimeValue where
  objType : Nat
  hasExpire : Bool
  deriving DecidableEq, Repr

/-- One PrimeTable entry: the key's sticky bit (PrimeKey::IsSticky), the
value, and the bucket version the iterator exposes (GetVersion/SetVersion),
modelled per entry. -/
structure Entry where
  sticky : Bool
  value : PrimeValue
  version : Nat
  deriving DecidableEq, Repr

/-- Association-list lookup, first match wins (DashTable::Find). -/
def alookup {α : Type} (l : List (Key × α)) (k : Key) : Option α :=
  (l.find? (fun p => p.1 = k)).map (fun p => p.2)

/-- Association-list erase of every pair with the given key
(DashTable::Erase). -/
def aerase {α : Type} (l : List (Key × α)) (k : Key) : List (Key × α) :=
  l.filter (fun p => ¬ (p.1 = k))

/-- Association-list in-place value update at the given key (an in-place
mutation through a valid iterator). -/
def aupdate {α : Type} (l : List (Key × α)) (k : Key) (f : α → α) : List (Key × α) :=
  l.map (fun p => if p.1 = k then (p.1, f p.2) else p)

/-- The keys of an association list. -/
def akeys {α : Type} (l : List (Key × α)) : List Key :=
  l.map (fun p => p.1)

theorem mem_aerase {α : Type} {l : List (Key × α)} {k : Key} {p : Key × α} :
    p ∈ aerase l k ↔ p ∈ l ∧ p.1 ≠ k := by
  simp [aerase]

theorem akeys_mem_iff {α : Type} {l : List (Key × α)} {k : Key} :
    k ∈ akeys l ↔ ∃ v, (k, v) ∈ l := by
  constructor
  · intro h
    rcases List.mem_map.mp h with ⟨p, hp, hk⟩
    exact ⟨p.2, by cases p; cases hk; exact hp⟩
  · rintro ⟨v, hv⟩
    exact List.mem_map.mpr ⟨(k, v), hv, rfl⟩

theorem mem_akeys_aerase {α : Type} {l : List (Key × α)} {k k0 : Key} :
    k0 ∈ akeys (aerase l k) ↔ k0 ∈ akeys l ∧ k0 ≠ k := by
  constructor
  · intro h
    rcases akeys_mem_iff.mp h with ⟨v, hv⟩
    rcases mem_aerase.mp hv with ⟨hmem, hne⟩
    exact ⟨akeys_mem_iff.mpr ⟨v, hmem⟩, hne⟩
  · rintro ⟨h, hne⟩
    rcases akeys_mem_iff.mp h with ⟨v, hv⟩
    exact akeys_mem_iff.mpr ⟨v, mem_aerase.mpr ⟨hv, hne⟩⟩

theorem akeys_aupdate {α : Type} (l : List (Key × α)) (k : Key) (f : α → α) :
    akeys (aupdate l k f) = akeys l := by
  induction l with
  | nil => rfl
  | cons p t ih =>
    by_cases h : p.1 = k <;> simp [aupdate, akeys, h] at ih ⊢ <;>
      simpa [aupdate, akeys] using ih

theorem mem_aupdate {α : Type} {l : List (Key × α)} {k : Key} {f : α → α} {p : Key × α} :
    p ∈ aupdate l k f → ∃ q ∈ l, (q.1 = k ∧ p = (q.1, f q.2)) ∨ (q.1 ≠ k ∧ p = q) := by
  intro h
  rcases List.mem_map.mp h with ⟨q, hq, hpq⟩
  by_cases hk : q.1 = k
  · exact ⟨q, hq, Or.inl ⟨hk, by simpa [hk] using hpq.symm⟩⟩
  · exact ⟨q, hq, Or.inr ⟨hk, by simpa [hk] using hpq.symm⟩⟩

theorem alookup_eq_none {α : Type} {l : List (Key × α)} {k : Key} :
    alookup l k = none ↔ k ∉ akeys l := by
  induction l with
  | nil => simp [alookup, akeys]
  | cons p t ih =>
    by_cases h : p.1 = k
    · simp [alookup, akeys, List.find?, h]
    · have hks : ¬ k = p.1 := fun hk => h hk.symm
      simpa [alookup, akeys, List.find?, h, hks] using ih

theorem alookup_mem {α : Type} {l : List (Key × α)} {k : Key} {v : α} :
    alookup l k = some v → (k, v) ∈ l := by
  induction l with
  | nil => simp [alookup]
  | cons p t ih =>
    by_cases h : p.1 = k
    · intro hl
      have : p.2 = v := by simpa [alookup, List.find?, h] using hl
      cases p
      simp_all
    · intro hl
      exact List.mem_cons_of_mem _ (ih (by simpa [alookup, List.find?, h] using hl))

theorem alookup_isSome_of_mem {α : Type} {l : List (Key × α)} {k : Key} {v : α} :
    (k, v) ∈ l → ∃ w, alookup l k = some w := by
  intro h
  cases hl : alookup l k with
  | some w => exact ⟨w, rfl⟩
  | none =>
    exact absurd (akeys_mem_iff.mpr ⟨v, h⟩) (alookup_eq_none.mp hl)

theorem alookup_aerase_self {α : Type} (l : List (Key × α)) (k : Key) :
    alookup (aerase l k) k = none := by
  apply alookup_eq_none.mpr
  intro h
  exact (mem_akeys_aerase.mp h).2 rfl

/-- The per-slice event counter block (SliceEvents, db_slice.h); only the
counters the modelled operations touch are kept. -/
structure SliceEvents where
  evicted_keys : Nat := 0
  expired_keys : Nat := 0
  bumpups : Nat := 0
  hits : Nat := 0
  misses : Nat := 0
  mutations : Nat := 0
  insertion_rejections : Nat := 0
  update : Nat := 0
  deriving DecidableEq, Repr

/-- One DbTable (table.h:152): the PrimeTable, the ExpireTable (key to
relative ExpirePeriod), the transaction lock table (as the set of locked
keys) and the watched-keys index (key to the watching connection ids). -/
structure DbTable where
  prime : List (Key × Entry)
  expire : List (Key × Nat)
  trans_locks : List Key
  watched_keys : List (Key × List Nat)
  deriving DecidableEq, Repr

/-- A journal record for a synthetic DEL (journal::Op::EXPIRED with a DEL
payload), as emitted for lazy expiry and evictions. -/
structure JournalEntry where
  db_index : Nat
  key : Key
  deriving DecidableEq, Repr

/-- The DbSlice state (db_slice.h/db_slice.cc).  key_slot stands for
ClusterConfig::KeySlot, a pure CRC-based function external to the slice. -/
structure DbSlice where
  db_arr : List (Option DbTable)
  events : SliceEvents
  expire_base : Nat
  expire_allowed : Bool
  is_replica : Bool
  caching_mode : Bool
  change_cb : List (Nat × Nat)
  bumped_items : List Key
  memory_budget : Int
  version_counter : Nat
  deletion_count : Nat
  has_journal : Bool
  journal : List JournalEntry
  key_slot : Key → Nat

/-- DbSlice table accessor: db_arr_[db_index] when in range. -/
def DbSlice.getTable (s : DbSlice) (dbi : Nat) : Option DbTable :=
  (s.db_arr.getD dbi none)

/-- DbSlice::IsDbValid: the index is in range and the table was created. -/
def DbSlice.IsDbValid (s : DbSlice) (dbi : Nat) : Bool :=
  (s.getTable dbi).isSome

def DbSlice.setTable (s : DbSlice) (dbi : Nat) (t : DbTable) : DbSlice :=
  { s with db_arr := s.db_arr.set dbi (some t) }

/-- Apply an update to the table at the given index, when it exists. -/
def DbSlice.updTable (s : DbSlice) (dbi : Nat) (f : DbTable → DbTable) : DbSlice :=
  match s.getTable dbi with
  | some t => s.setTable dbi (f t)
  | none => s

def DbSlice.lookupPrime (s : DbSlice) (dbi : Nat) (k : Key) : Option Entry :=
  match s.getTable dbi with
  | some t => alookup t.prime k
  | none => none

def DbSlice.lookupExpire (s : DbSlice) (dbi : Nat) (k : Key) : Option Nat :=
  match s.getTable dbi with
  | some t => alookup t.expire k
  | none => none

/-- Modelled from the spec: NextVersion() (db_slice.h, not in src/) returns
a strictly monotonically increasing version counter (spec section 4.3). -/
def DbSlice.NextVersion (s : DbSlice) : Nat × DbSlice :=
  (s.version_counter + 1, { s with version_counter := s.version_counter + 1 })

/-- DbSlice::PerformDeletion(del_it, exp_it, table) (db_slice.cc:1496):
erases the expire entry when exp_it is valid and erases the prime entry.
The mcflag, per-slot statistics, memory accounting and client-tracking
bookkeeping it also performs affects no state this development models. -/
def DbSlice.PerformDeletionExp (s : DbSlice) (dbi : Nat) (k : Key) (exp_valid : Bool) :
    DbSlice :=
  s.updTable dbi (fun t =>
    { t with expire := if exp_valid then aerase t.expire k else t.expire,
             prime := aerase t.prime k })

/-- DbSlice::PerformDeletion(del_it, table) (db_slice.cc:1534): the expire
iterator is looked up exactly when the value carries the HasExpire bit. -/
def DbSlice.PerformDeletion (s : DbSlice) (dbi : Nat) (k : Key) : DbSlice :=
  let exp_valid :=
    match s.lookupPrime dbi k with
    | some e => e.value.hasExpire
    | none => false
  s.PerformDeletionExp dbi k exp_valid

/-- Result of DbSlice::ExpireIfNeeded: the updated slice and the prime and
expire iterators (a key stands for a valid iterator, none for is_done). -/
structure ExpireRes where
  s : DbSlice
  it : Option Key
  exp : Option Key

/-- DbSlice::ExpireIfNeeded (db_slice.cc:1075).  The source CHECKs that the
expire entry exists; when it does not (unreachable under the expire
invariant) we return the iterator unchanged.  ExpireTime(exp_it) is the
per-database base plus the stored relative deadline. -/
def DbSlice.ExpireIfNeeded (s : DbSlice) (dbi now : Nat) (k : Key) : ExpireRes :=
  match s.lookupExpire dbi k with
  | none => ⟨s, some k, none⟩
  | some delta =>
    let expire_time := s.expire_base + delta
    if now < expire_time ∨ s.is_replica = true ∨ s.expire_allowed = false then
      ⟨s, some k, some k⟩
    else
      let s1 := if s.has_journal then { s with journal := s.journal ++ [⟨dbi, k⟩] } else s
      let s2 := s1.PerformDeletionExp dbi k true
      ⟨{ s2 with events := { s2.events with expired_keys := s2.events.expired_keys + 1 } },
       none, none⟩

/-- UpdateStatsMode (db_slice.h): which counter family a Find call feeds. -/
inductive UpdateStatsMode where
  | kMutableStats
  | kReadStats
  deriving DecidableEq, Repr

/-- The update_stats_on_miss cleanup body (db_slice.cc:449): counts the
access as a mutation or a miss. -/
def DbSlice.statsOnMiss (s : DbSlice) (m : UpdateStatsMode) : DbSlice :=
  match m with
  | .kMutableStats => { s with events := { s.events with mutations := s.events.mutations + 1 } }
  | .kReadStats => { s with events := { s.events with misses := s.events.misses + 1 } }

/-- The success-path stats switch (db_slice.cc:508): a mutation or a hit
(the per-slot total_reads counter is outside the modelled state). -/
def DbSlice.statsOnSuccess (s : DbSlice) (m : UpdateStatsMode) : DbSlice :=
  match m with
  | .kMutableStats => { s with events := { s.events with mutations := s.events.mutations + 1 } }
  | .kReadStats => { s with events := { s.events with hits := s.events.hits + 1 } }

/-- PrimeBumpPolicy::CanBumpDown (db_slice.cc:124): a key may be moved iff
it is not sticky and is not in the bumped_items_ set of the current
command. -/
def CanBumpDown (bumped_items : List Key) (sticky : Bool) (k : Key) : Bool :=
  (!sticky) && (!(bumped_items.contains k))

/-- Modelled from the spec: DashTable's CVCUponBump/BumpUp primitives
(core/dash.h, not in src/).  Per spec sections 4.1 and 4.3, a bump first
notifies the registered change callbacks (an external effect), then moves
the entry to a more favorable slot and advances its bucket version, unless
the policy refuses the move. -/
def DbSlice.BumpUp (s : DbSlice) (dbi : Nat) (k : Key) (e : Entry) : DbSlice :=
  if CanBumpDown s.bumped_items e.sticky k then
    let vs := s.NextVersion
    vs.2.updTable dbi (fun t =>
      { t with prime := aupdate t.prime k (fun e0 => { e0 with version := vs.1 }) })
  else s

/-- Result of a Find-family call: the status, the prime and expire
iterators and the updated slice. -/
structure FindRes where
  status : OpStatus
  it : Option Key
  exp : Option Key
  s : DbSlice

/-- The caching-mode bump block and the success-path stats switch of
DbSlice::FindInternal (db_slice.cc lines 490-519): in caching mode, notify
the change callbacks (CVCUponBump, external effect), bump the entry up
under the PrimeBumpPolicy, count the bumpup and record the key in
bumped_items_; then cancel the miss cleanup and count the hit or the
mutation.  The top_keys touch is outside the modelled state. -/
def DbSlice.findCachingAndStats (s1 : DbSlice) (dbi : Nat) (k : Key) (e : Entry)
    (exp : Option Key) (stats_mode : UpdateStatsMode) : FindRes :=
  let s2 :=
    if s1.caching_mode then
      let e1 := (s1.lookupPrime dbi k).getD e
      let s2a := s1.BumpUp dbi k e1
      let s2b := { s2a with events := { s2a.events with bumpups := s2a.events.bumpups + 1 } }
      { s2b with bumped_items :=
          if s2b.bumped_items.contains k then s2b.bumped_items else k :: s2b.bumped_items }
    else s1
  ⟨.OK, some k, exp, s2.statsOnSuccess stats_mode⟩

/-- The tail of DbSlice::FindInternal after the type check (db_slice.cc
lines 482-519): lazy expiry, then the caching block and final stats. -/
def DbSlice.findTail (s : DbSlice) (dbi now : Nat) (k : Key) (e : Entry)
    (stats_mode : UpdateStatsMode) : FindRes :=
  if e.value.hasExpire then
    match s.ExpireIfNeeded dbi now k with
    | ⟨s1, none, _⟩ => ⟨.KEY_NOTFOUND, none, none, s1.statsOnMiss stats_mode⟩
    | ⟨s1, some _, exp1⟩ => s1.findCachingAndStats dbi k e exp1 stats_mode
  else s.findCachingAndStats dbi k e none stats_mode

/-- DbSlice::FindInternal (db_slice.cc:437).  No tiered storage is
configured in the model (a null tiered_storage()) so the external-load
branch is skipped.  The update_stats_on_miss cleanup is armed after the
prime lookup and fires on every return until it is cancelled right before
the success-path stats switch (db_slice.cc:507). -/
def DbSlice.FindInternal (s : DbSlice) (dbi now : Nat) (k : Key)
    (req_obj_type : Option Nat) (stats_mode : UpdateStatsMode) : FindRes :=
  if s.IsDbValid dbi = false then ⟨.KEY_NOTFOUND, none, none, s⟩
  else
    match s.lookupPrime dbi k with
    | none => ⟨.KEY_NOTFOUND, none, none, s.statsOnMiss stats_mode⟩
    | some e =>
      match req_obj_type with
      | some t =>
        if e.value.objType ≠ t then ⟨.WRONG_TYPE, none, none, s.statsOnMiss stats_mode⟩
        else s.findTail dbi now k e stats_mode
      | none => s.findTail dbi now k e stats_mode

/-- DbSlice::FindReadOnly(cntx, key) (db_slice.cc:410). -/
def DbSlice.FindReadOnly (s : DbSlice) (dbi now : Nat) (k : Key) : FindRes :=
  s.FindInternal dbi now k none .kReadStats

/-- DbSlice::FindReadOnly(cntx, key, req_obj_type) (db_slice.cc:416). -/
def DbSlice.FindReadOnlyTyped (s : DbSlice) (dbi now : Nat) (k : Key) (req : Nat) : FindRes :=
  s.FindInternal dbi now k (some req) .kReadStats

/-- DbSlice::PreUpdate (db_slice.cc:1038): notifies the registered change
callbacks with the mutation notice (an external effect) and advances the
entry's bucket version to NextVersion(). -/
def DbSlice.PreUpdate (s : DbSlice) (dbi : Nat) (k : Key) : DbSlice :=
  let vs := s.NextVersion
  vs.2.updTable dbi (fun t =>
    { t with prime := aupdate t.prime k (fun e => { e with version := vs.1 }) })

/-- DbSlice::FindMutableInternal (db_slice.cc:393): FindInternal with
mutable stats followed by PreUpdate on success. -/
def DbSlice.FindMutableInternal (s : DbSlice) (dbi now : Nat) (k : Key)
    (req_obj_type : Option Nat) : FindRes :=
  let r := s.FindInternal dbi now k req_obj_type .kMutableStats
  if r.status = .OK then { r with s := r.s.PreUpdate dbi k } else r

/-- Result of the AddOrFind/AddOrUpdate family.  The policy_* fields expose
the PrimeEvictionPolicy constructed for the insertion attempt
(db_slice.cc:588): whether it may evict at runtime, whether the memory
limit applies, and its initial budget memory_budget_ - key.size(). -/
structure AddOrFindRes where
  status : OpStatus
  it : Option Key
  exp : Option Key
  is_new : Bool
  s : DbSlice
  policy_can_evict : Bool := false
  policy_apply_limit : Bool := false
  policy_mem_budget : Int := 0

/-- DbSlice::AddOrFindInternal (db_slice.cc:549).  loading models
ServerState gstate() == GlobalState::LOADING; insert_throws models the
allocator throwing bad_alloc inside PrimeTable::InsertNew (dash internals,
not in src/; per the spec the rejected insertion leaves the table
unchanged).  The new-key change-callback notifications are an external
effect.  The source DCHECKs IsDbValid; the invalid-index branch here is
unreachable for callers respecting that contract. -/
def DbSlice.AddOrFindInternal (s : DbSlice) (dbi now : Nat) (k : Key)
    (loading insert_throws : Bool) : AddOrFindRes :=
  if s.IsDbValid dbi = false then
    { status := .KEY_NOTFOUND, it := none, exp := none, is_new := false, s := s }
  else
    let r := s.FindInternal dbi now k none .kMutableStats
    if r.status = .OK then
      { status := .OK, it := r.it, exp := r.exp, is_new := false, s := r.s.PreUpdate dbi k }
    else
      let apply_memory_limit := (!r.s.is_replica) && (!loading)
      let policy_budget : Int := r.s.memory_budget - (k.length : Int)
      let can_evict := r.s.caching_mode && (!r.s.is_replica)
      if apply_memory_limit && (!r.s.caching_mode) && decide (policy_budget < 0) then
        { status := .OUT_OF_MEMORY, it := none, exp := none, is_new := false,
          s := { r.s with events :=
            { r.s.events with insertion_rejections := r.s.events.insertion_rejections + 1 } },
          policy_can_evict := can_evict, policy_apply_limit := apply_memory_limit,
          policy_mem_budget := policy_budget }
      else if insert_throws then
        { status := .OUT_OF_MEMORY, it := none, exp := none, is_new := false,
          s := { r.s with events :=
            { r.s.events with insertion_rejections := r.s.events.insertion_rejections + 1 } },
          policy_can_evict := can_evict, policy_apply_limit := apply_memory_limit,
          policy_mem_budget := policy_budget }
      else
        let vs := r.s.NextVersion
        let fresh : Entry :=
          { sticky := false, value := { objType := 0, hasExpire := false }, version := vs.1 }
        let s2 := vs.2.updTable dbi (fun t => { t with prime := (k, fresh) :: t.prime })
        { status := .OK, it := some k, exp := none, is_new := true,
          s := { s2 with memory_budget := policy_budget },
          policy_can_evict := can_evict, policy_apply_limit := apply_memory_limit,
          policy_mem_budget := policy_budget }

/-- DbSlice::AddOrFind (db_slice.cc:540). -/
def DbSlice.AddOrFind (s : DbSlice) (dbi now : Nat) (k : Key)
    (loading insert_throws : Bool) : AddOrFindRes :=
  s.AddOrFindInternal dbi now k loading insert_throws

/-- DbSlice::AddOrUpdateInternal (db_slice.cc:892).  The PrimeValue
move-assignment at line 909 is CompactObj code that is not in src/;
Modelled from the spec: the spec ties the HasExpire bit to ExpireTable
membership ("a PrimeValue's HasExpire bit is set iff an ExpireTable entry
exists for that key", spec section 3), so overwriting the stored value
keeps the destination's HasExpire bit; all other value attributes come
from the new object. -/
def DbSlice.AddOrUpdateInternal (s : DbSlice) (dbi now : Nat) (k : Key) (obj : PrimeValue)
    (expire_at_ms : Nat) (force_update loading insert_throws : Bool) : AddOrFindRes :=
  let r := s.AddOrFind dbi now k loading insert_throws
  if r.status ≠ .OK then r
  else if r.is_new = false ∧ force_update = false then r
  else
    let s1 := r.s.updTable dbi (fun t =>
      { t with prime := aupdate t.prime k (fun e =>
          { e with value := { obj with hasExpire := e.value.hasExpire } }) })
    if expire_at_ms ≠ 0 then
      let s2 := s1.updTable dbi (fun t =>
        { t with prime := aupdate t.prime k (fun e =>
            { e with value := { e.value with hasExpire := true } }) })
      let delta := expire_at_ms - s2.expire_base
      let s3 :=
        if r.exp.isSome ∧ force_update then
          s2.updTable dbi (fun t => { t with expire := aupdate t.expire k (fun _ => delta) })
        else
          s2.updTable dbi (fun t => { t with expire := (k, delta) :: t.expire })
      { r with s := s3 }
    else { r with s := s1 }

/-- DbSlice::AddOrUpdate (db_slice.cc:924): upsert with force_update. -/
def DbSlice.AddOrUpdate (s : DbSlice) (dbi now : Nat) (k : Key) (obj : PrimeValue)
    (expire_at_ms : Nat) (loading insert_throws : Bool) : AddOrFindRes :=
  s.AddOrUpdateInternal dbi now k obj expire_at_ms true loading insert_throws

/-- DbSlice::AddNew (db_slice.cc:831): AddOrUpdateInternal without
force_update; the source CHECKs the result is a fresh insertion. -/
def DbSlice.AddNew (s : DbSlice) (dbi now : Nat) (k : Key) (obj : PrimeValue)
    (expire_at_ms : Nat) (loading insert_throws : Bool) : AddOrFindRes :=
  s.AddOrUpdateInternal dbi now k obj expire_at_ms false loading insert_throws

/-- DbSlice::AddExpire (db_slice.cc:777): inserts the relative deadline and
sets the value's HasExpire bit.  The source takes a valid prime iterator
and CHECKs that the expire insertion found no existing entry; both failure
cases (unreachable under the expire invariant) leave the state
unchanged. -/
def DbSlice.AddExpire (s : DbSlice) (dbi : Nat) (k : Key) (at_ms : Nat) : DbSlice :=
  match s.getTable dbi with
  | none => s
  | some t =>
    if (akeys t.prime).contains k = false then s
    else if (akeys t.expire).contains k then s
    else
      let delta := at_ms - s.expire_base
      s.setTable dbi
        { t with
          expire := (k, delta) :: t.expire,
          prime := aupdate t.prime k (fun e =>
            { e with value := { e.value with hasExpire := true } }) }

/-- DbSlice::RemoveExpire (db_slice.cc:783): when the value has the
HasExpire bit, erases the expire entry and clears the bit.  The source
takes a valid prime iterator; an absent key leaves the state unchanged. -/
def DbSlice.RemoveExpire (s : DbSlice) (dbi : Nat) (k : Key) : Bool × DbSlice :=
  match s.lookupPrime dbi k with
  | none => (false, s)
  | some e =>
    if e.value.hasExpire then
      (true, s.updTable dbi (fun t =>
        { t with
          expire := aerase t.expire k,
          prime := aupdate t.prime k (fun e0 =>
            { e0 with value := { e0.value with hasExpire := false } }) }))
    else (false, s)

/-- DbSlice::UpdateExpire(db_ind, it, at) (db_slice.cc:793). -/
def DbSlice.UpdateExpire (s : DbSlice) (dbi : Nat) (k : Key) (at_ms : Nat) : Bool × DbSlice :=
  if at_ms = 0 then s.RemoveExpire dbi k
  else
    match s.lookupPrime dbi k with
    | none => (false, s)
    | some e =>
      if e.value.hasExpire = false then (true, s.AddExpire dbi k at_ms)
      else (false, s)

/-- DbSlice::Del (db_slice.cc:662): erases the key from bumped_items_,
performs the deletion and counts it; the JSON/HASH document-deletion hook
is an external effect. -/
def DbSlice.Del (s : DbSlice) (dbi : Nat) (k : Key) : Bool × DbSlice :=
  match s.lookupPrime dbi k with
  | none => (false, s)
  | some _ =>
    let s1 := { s with bumped_items := s.bumped_items.erase k }
    let s2 := s1.PerformDeletion dbi k
    (true, { s2 with deletion_count := s2.deletion_count + 1 })

/-- Modelled from the spec: kMaxExpireDeadlineSec (server constants, not in
src/); the spec only uses it as the bound kMaxExpireDeadlineSec*1000 on
relative deadlines, its magnitude is immaterial to the claims. -/
def kMaxExpireDeadlineSec : Int := 268435455

/-- DbSlice::ExpireParams (db_slice.h): value with unit and sign, the
NX/XX/GT/LT flags and persist. -/
structure ExpireParams where
  value : Int
  unit_sec : Bool
  absolute : Bool
  expire_nx : Bool
  expire_xx : Bool
  expire_gt : Bool
  expire_lt : Bool
  persist : Bool

/-- DbSlice::ExpireParams::Calculate (db_slice.cc:842): the relative and
absolute deadlines in milliseconds. -/
def ExpireParams.Calculate (p : ExpireParams) (now_ms : Int) : Int × Int :=
  if p.persist then (0, 0)
  else
    let msec := if p.unit_sec then p.value * 1000 else p.value
    let rel_msec := if p.absolute then msec - now_ms else msec
    (rel_msec, now_ms + rel_msec)

/-- DbSlice::UpdateExpire(cntx, prime_it, expire_it, params)
(db_slice.cc:851).  The expire iterator the source receives from the
caller's Find is recovered here from the table (valid exactly when the key
has an expire entry). -/
def DbSlice.UpdateExpireParams (s : DbSlice) (dbi now : Nat) (k : Key)
    (p : ExpireParams) : (Except OpStatus Int) × DbSlice :=
  if p.persist then
    let rs := s.RemoveExpire dbi k
    (.ok 0, rs.2)
  else
    let rel_abs := p.Calculate (now : Int)
    if rel_abs.1 > kMaxExpireDeadlineSec * 1000 then (.error .OUT_OF_RANGE, s)
    else if rel_abs.1 ≤ 0 then
      let ds := s.Del dbi k
      (.ok (-1), ds.2)
    else
      match s.lookupExpire dbi k with
      | some delta =>
        if p.expire_nx then (.error .SKIPPED, s)
        else if p.expire_lt ∧ ((s.expire_base : Int) + (delta : Int)) ≤ rel_abs.2 then
          (.error .SKIPPED, s)
        else if p.expire_gt ∧ ((s.expire_base : Int) + (delta : Int)) ≥ rel_abs.2 then
          (.error .SKIPPED, s)
        else
          (.ok rel_abs.2,
           s.updTable dbi (fun t =>
             { t with expire :=
                 aupdate t.expire k (fun _ => (rel_abs.2 - (s.expire_base : Int)).toNat) }))
      | none =>
        if p.expire_xx then (.error .SKIPPED, s)
        else (.ok rel_abs.2, s.AddExpire dbi k rel_abs.2.toNat)

/-- The stash-bucket view handed to the eviction policy
(PrimeTable::HotspotBuckets, dash internals not in src/): the probed stash
buckets, each given by its kBucketWidth slots (a slot holds the key stored
there), and the probed key's hash.  The policy dereferences slots through
the table. -/
structure HotspotBuckets where
  key_hash : Nat
  stash_buckets : List (List (Option Key))

/-- Result of PrimeEvictionPolicy::Evict: the returned count, the policy's
evicted_ counter delta and the updated slice. -/
structure EvictRes where
  ret : Nat
  evicted : Nat
  s : DbSlice

/-- PrimeEvictionPolicy::Evict (db_slice.cc:173).  The stash bucket is
chosen as key_hash mod kNumStashBuckets and its last slot is targeted
(bucket_it advanced by kBucketWidth - 1 is done unless that slot is
occupied).  KeyLockArgs::GetLockKey is not in src/; per spec section 4.5
the lock key is the key itself.  ShiftRight is a dash-internal bucket
reorganization that adds and removes no entries, a no-op on this state. -/
def DbSlice.Evict (s : DbSlice) (dbi : Nat) (can_evict : Bool) (eb : HotspotBuckets) :
    EvictRes :=
  if can_evict = false then ⟨0, 0, s⟩
  else
    let bucket := eb.stash_buckets.getD (eb.key_hash % eb.stash_buckets.length) []
    let last_slot : Option Key := (bucket.getLast?).getD none
    match last_slot with
    | none => ⟨1, 0, s⟩
    | some k =>
      match s.lookupPrime dbi k with
      | none => ⟨1, 0, s⟩
      | some e =>
        if e.sticky then ⟨0, 0, s⟩
        else
          let locked :=
            match s.getTable dbi with
            | some t => t.trans_locks.contains k
            | none => false
          if locked then ⟨0, 0, s⟩
          else
            let s1 :=
              if s.has_journal then { s with journal := s.journal ++ [⟨dbi, k⟩] } else s
            let s2 := s1.PerformDeletion dbi k
            ⟨1, 1, s2⟩

/-- DbSlice::FlushSlotsFb (db_slice.cc:683): captures next_version once at
entry, then traverses db 0's PrimeTable applying del_entry_cb, which
performs the deletion for the entries whose slot is in the flushed set and
whose bucket version is below next_version.  The fiber yields and the final
heap collection do not affect the modelled state. -/
def DbSlice.FlushSlotsFb (s : DbSlice) (slot_ids : List Nat) : DbSlice :=
  let vs := s.NextVersion
  match vs.2.getTable 0 with
  | none => vs.2
  | some t0 =>
    t0.prime.foldl
      (fun acc p =>
        if (slot_ids.contains (s.key_slot p.1)) && decide (p.2.version < vs.1) then
          acc.PerformDeletion 0 p.1
        else acc)
      vs.2

/-- DbSlice::InvalidateSlotWatches (db_slice.cc:1417): walks db 0's
watched_keys and marks the watchers of the flushed slots dirty.  The dirty
bits live in connection state outside every DbTable; the function returns
the connection ids it marks. -/
def DbSlice.InvalidateSlotWatches (s : DbSlice) (slot_ids : List Nat) : List Nat :=
  match s.getTable 0 with
  | none => []
  | some t0 =>
    (t0.watched_keys.filter (fun p => slot_ids.contains (s.key_slot p.1))).foldl
      (fun acc p => acc ++ p.2) []

/-- DbSlice::FlushSlots (db_slice.cc:715): invalidates the slot watches and
runs FlushSlotsFb (on a detached fiber in the source; its full effect is
modelled sequentially).  The marked connection ids are returned with the
state. -/
def DbSlice.FlushSlots (s : DbSlice) (slot_ids : List Nat) : DbSlice × List Nat :=
  let dirtied := s.InvalidateSlotWatches slot_ids
  (s.FlushSlotsFb slot_ids, dirtied)

/-- DbSlice::RegisterOnChange (db_slice.cc:1134): appends the callback
under a fresh NextVersion(). -/
def DbSlice.RegisterOnChange (s : DbSlice) (cb : Nat) : Nat × DbSlice :=
  let vs := s.NextVersion
  (vs.1, { vs.2 with change_cb := vs.2.change_cb ++ [(vs.1, cb)] })

/-- DbSlice::FlushChangeToEarlierCallbacks (db_slice.cc:1140), as the list
of callbacks it invokes with the mutation notice, in invocation order: the
loop walks change_cb_ in order, stops at the first callback whose version
equals upper_bound, and invokes those whose version exceeds the bucket
version. -/
def FlushChangeToEarlierCallbacks (cbs : List (Nat × Nat))
    (bucket_version upper_bound : Nat) : List (Nat × Nat) :=
  match cbs with
  | [] => []
  | c :: rest =>
    if c.1 = upper_bound then []
    else if bucket_version < c.1 then
      c :: FlushChangeToEarlierCallbacks rest bucket_version upper_bound
    else FlushChangeToEarlierCallbacks rest bucket_version upper_bound

/-- DbSlice::OnCbFinish (db_slice.cc:1544): clears bumped_items_ at the
command boundary. -/
def DbSlice.OnCbFinish (s : DbSlice) : DbSlice :=
  { s with bumped_items := [] }

/-- MigrationState (cluster_defs, not in src/); the enum order follows the
spec's state machine C_NO_STATE, C_CONNECTING, C_FULL_SYNC,
C_STABLE_SYNC. -/
inductive MigrationState where
  | C_NO_STATE
  | C_CONNECTING
  | C_FULL_SYNC
  | C_STABLE_SYNC
  deriving DecidableEq, Repr

def MigrationState.toNat : MigrationState → Nat
  | .C_NO_STATE => 0
  | .C_CONNECTING => 1
  | .C_FULL_SYNC => 2
  | .C_STABLE_SYNC => 3

/-- std::min over the MigrationState enum ordering. -/
def stateMin (a b : MigrationState) : MigrationState :=
  if b.toNat < a.toNat then b else a

/-- OutgoingMigration::SliceSlotMigration (outgoing_slot_migration.cc:12):
its state_ and what its streamer_.IsSnapshotFinished() reports. -/
structure SliceSlotMigration where
  state : MigrationState
  snapshot_finished : Bool
  deriving DecidableEq, Repr

/-- OutgoingMigration::SliceSlotMigration::GetState
(outgoing_slot_migration.cc:24). -/
def SliceSlotMigration.GetState (m : SliceSlotMigration) : MigrationState :=
  if m.state = .C_FULL_SYNC ∧ m.snapshot_finished then .C_STABLE_SYNC else m.state

/-- OutgoingMigration::GetState (outgoing_slot_migration.cc:55): fold of
std::min over the non-null per-shard flows, started at C_STABLE_SYNC. -/
def OutgoingMigrationGetState (slot_migrations : List (Option SliceSlotMigration)) :
    MigrationState :=
  slot_migrations.foldl
    (fun min_state sm =>
      match sm with
      | some m => stateMin min_state m.GetState
      | none => min_state)
    .C_STABLE_SYNC

/-! Invariant infrastructure: the HasExpire/ExpireTable coupling (spec
sections 3 and 8, invariant 1) together with the containment of the expire
key set in the prime key set that the source's CHECKs rely on. -/

/-- The per-table expire invariant: a stored value's HasExpire bit is set
iff the ExpireTable holds an entry for its key, and every expire entry
belongs to a live prime entry. -/
def TableInv (t : DbTable) : Prop :=
  (∀ p ∈ t.prime, (p.2.value.hasExpire = true ↔ p.1 ∈ akeys t.expire)) ∧
  (∀ k ∈ akeys t.expire, k ∈ akeys t.prime)

instance : DecidablePred TableInv := fun t => by
  unfold TableInv
  infer_instance

def OptTableInv : Option DbTable → Prop
  | none => True
  | some t => TableInv t

instance : DecidablePred OptTableInv := fun od =>
  match od with
  | none => isTrue trivial
  | some t => inferInstanceAs (Decidable (TableInv t))

/-- The slice-wide expire invariant over every created DbTable. -/
def SliceInv (s : DbSlice) : Prop :=
  ∀ od ∈ s.db_arr, OptTableInv od

instance (s : DbSlice) : Decidable (SliceInv s) :=
  inferInstanceAs (Decidable (∀ od ∈ s.db_arr, OptTableInv od))

theorem getTable_mem {s : DbSlice} {dbi : Nat} {t : DbTable} :
    s.getTable dbi = some t → some t ∈ s.db_arr := by
  unfold DbSlice.getTable
  intro h
  have : dbi < s.db_arr.length := by
    by_contra hlen
    rw [List.getD_eq_default] at h
    · exact Option.noConfusion h
    · omega
  rw [List.getD_eq_getElem _ _ this] at h
  exact h ▸ List.getElem_mem this

theorem sliceInv_table {s : DbSlice} {dbi : Nat} {t : DbTable} (hs : SliceInv s)
    (h : s.getTable dbi = some t) : TableInv t :=
  hs (some t) (getTable_mem h)

theorem sliceInv_of_dbarr_eq {s1 s2 : DbSlice} (h : s2.db_arr = s1.db_arr)
    (hs : SliceInv s1) : SliceInv s2 := by
  intro od hod
  exact hs od (h ▸ hod)

theorem sliceInv_updTable {s : DbSlice} {dbi : Nat} {f : DbTable → DbTable}
    (hs : SliceInv s)
    (hf : ∀ t, s.getTable dbi = some t → TableInv t → TableInv (f t)) :
    SliceInv (s.updTable dbi f) := by
  unfold DbSlice.updTable
  cases hget : s.getTable dbi with
  | none => exact hs
  | some t =>
    intro od hod
    rcases List.mem_or_eq_of_mem_set hod with hmem | heq
    · exact hs od hmem
    · subst heq
      exact hf t hget (sliceInv_table hs hget)

theorem tableInv_erase_both {t : DbTable} (k : Key) (h : TableInv t) :
    TableInv { t with prime := aerase t.prime k, expire := aerase t.expire k } := by
  obtain ⟨pr, ex, tl, wk⟩ := t
  obtain ⟨h1, h2⟩ := h
  dsimp only [TableInv] at h1 h2 ⊢
  constructor
  · intro p hp
    obtain ⟨hmem, hne⟩ := mem_aerase.mp hp
    rw [h1 p hmem, mem_akeys_aerase]
    exact ⟨fun hx => ⟨hx, hne⟩, fun hx => hx.1⟩
  · intro k0 hk0
    obtain ⟨hmem, hne⟩ := mem_akeys_aerase.mp hk0
    exact mem_akeys_aerase.mpr ⟨h2 k0 hmem, hne⟩

theorem tableInv_erase_prime {t : DbTable} {k : Key} (hke : k ∉ akeys t.expire)
    (h : TableInv t) : TableInv { t with prime := aerase t.prime k } := by
  obtain ⟨pr, ex, tl, wk⟩ := t
  obtain ⟨h1, h2⟩ := h
  dsimp only [TableInv] at h1 h2 hke ⊢
  constructor
  · intro p hp
    obtain ⟨hmem, _⟩ := mem_aerase.mp hp
    exact h1 p hmem
  · intro k0 hk0
    have hk0p := h2 k0 hk0
    have hne : k0 ≠ k := fun he => hke (he ▸ hk0)
    exact mem_akeys_aerase.mpr ⟨hk0p, hne⟩

theorem tableInv_update_value {t : DbTable} {k : Key} {f : Entry → Entry}
    (hf : ∀ e, (f e).value.hasExpire = e.value.hasExpire)
    (h : TableInv t) : TableInv { t with prime := aupdate t.prime k f } := by
  obtain ⟨pr, ex, tl, wk⟩ := t
  obtain ⟨h1, h2⟩ := h
  dsimp only [TableInv] at h1 h2 ⊢
  constructor
  · intro p hp
    rcases mem_aupdate hp with ⟨q, hq, hcase⟩
    rcases hcase with ⟨hk, hpq⟩ | ⟨hk, hpq⟩
    · subst hpq
      simpa [hf] using h1 q hq
    · rw [hpq]
      exact h1 q hq
  · intro k0 hk0
    rw [akeys_aupdate]
    exact h2 k0 hk0

theorem tableInv_insert_fresh {t : DbTable} {k : Key} {e : Entry}
    (hkp : k ∉ akeys t.prime) (hke : k ∉ akeys t.expire)
    (he : e.value.hasExpire = false) (h : TableInv t) :
    TableInv { t with prime := (k, e) :: t.prime } := by
  obtain ⟨pr, ex, tl, wk⟩ := t
  obtain ⟨h1, h2⟩ := h
  dsimp only [TableInv] at h1 h2 hkp hke ⊢
  constructor
  · intro p hp
    rcases List.mem_cons.mp hp with heq | hmem
    · subst heq
      simp [he, hke]
    · exact h1 p hmem
  · intro k0 hk0
    have := h2 k0 hk0
    simp only [akeys, List.map_cons, List.mem_cons]
    exact Or.inr (by simpa [akeys] using this)

theorem tableInv_set_bit_insert_expire {t : DbTable} {k : Key} {d : Nat} {f : Entry → Entry}
    (hf : ∀ e, (f e).value.hasExpire = true)
    (hkp : k ∈ akeys t.prime) (h : TableInv t) :
    TableInv { t with
      prime := aupdate t.prime k f,
      expire := (k, d) :: t.expire } := by
  obtain ⟨pr, ex, tl, wk⟩ := t
  obtain ⟨h1, h2⟩ := h
  dsimp only [TableInv] at h1 h2 hkp ⊢
  constructor
  · intro p hp
    rcases mem_aupdate hp with ⟨q, hq, hcase⟩
    simp only [akeys, List.map_cons, List.mem_cons]
    rcases hcase with ⟨hk, hpq⟩ | ⟨hk, hpq⟩
    · subst hpq
      simp [hk, hf]
    · rw [hpq]
      constructor
      · intro hbit
        exact Or.inr (by simpa [akeys] using (h1 q hq).mp hbit)
      · intro hmem
        rcases hmem with heq | hmem
        · exact absurd heq hk
        · exact (h1 q hq).mpr (by simpa [akeys] using hmem)
  · intro k0 hk0
    simp only [akeys, List.map_cons, List.mem_cons] at hk0
    rw [akeys_aupdate]
    rcases hk0 with heq | hmem
    · exact heq ▸ hkp
    · exact h2 k0 (by simpa [akeys] using hmem)

theorem tableInv_set_bit_update_expire {t : DbTable} {k : Key} {f : Entry → Entry}
    {g : Nat → Nat} (hf : ∀ e, (f e).value.hasExpire = true)
    (hke : k ∈ akeys t.expire) (h : TableInv t) :
    TableInv { t with
      prime := aupdate t.prime k f,
      expire := aupdate t.expire k g } := by
  obtain ⟨pr, ex, tl, wk⟩ := t
  obtain ⟨h1, h2⟩ := h
  dsimp only [TableInv] at h1 h2 hke ⊢
  constructor
  · intro p hp
    rcases mem_aupdate hp with ⟨q, hq, hcase⟩
    rw [akeys_aupdate]
    rcases hcase with ⟨hk, hpq⟩ | ⟨hk, hpq⟩
    · subst hpq
      simpa [hk, hf] using hke
    · rw [hpq]
      exact h1 q hq
  · intro k0 hk0
    rw [akeys_aupdate]
    rw [akeys_aupdate] at hk0
    exact h2 k0 hk0

theorem tableInv_clear_bit_erase {t : DbTable} (k : Key) (h : TableInv t) :
    TableInv { t with
      prime := aupdate t.prime k (fun e => { e with value := { e.value with hasExpire := false } }),
      expire := aerase t.expire k } := by
  obtain ⟨pr, ex, tl, wk⟩ := t
  obtain ⟨h1, h2⟩ := h
  dsimp only [TableInv] at h1 h2 ⊢
  constructor
  · intro p hp
    rcases mem_aupdate hp with ⟨q, hq, hcase⟩
    rcases hcase with ⟨hk, hpq⟩ | ⟨hk, hpq⟩
    · subst hpq
      constructor
      · intro hbit
        exact absurd hbit (by simp)
      · intro hmem
        exact absurd (mem_akeys_aerase.mp hmem).2 (by simp [hk])
    · rw [hpq]
      rw [h1 q hq, mem_akeys_aerase]
      exact ⟨fun hx => ⟨hx, hk⟩, fun hx => hx.1⟩
  · intro k0 hk0
    rw [akeys_aupdate]
    obtain ⟨hmem, _⟩ := mem_akeys_aerase.mp hk0
    exact h2 k0 hmem

theorem tableInv_update_expire_values {t : DbTable} {k : Key} {f : Nat → Nat}
    (h : TableInv t) : TableInv { t with expire := aupdate t.expire k f } := by
  obtain ⟨pr, ex, tl, wk⟩ := t
  obtain ⟨h1, h2⟩ := h
  dsimp only [TableInv] at h1 h2 ⊢
  constructor
  · intro p hp
    rw [akeys_aupdate]
    exact h1 p hp
  · intro k0 hk0
    rw [akeys_aupdate] at hk0
    exact h2 k0 hk0

/-! Preservation of the slice invariant by each modelled operation. -/

theorem lookupPrime_eq {s : DbSlice} {dbi : Nat} {t : DbTable} (k : Key)
    (h : s.getTable dbi = some t) : s.lookupPrime dbi k = alookup t.prime k := by
  unfold DbSlice.lookupPrime
  rw [h]

theorem lookupExpire_eq {s : DbSlice} {dbi : Nat} {t : DbTable} (k : Key)
    (h : s.getTable dbi = some t) : s.lookupExpire dbi k = alookup t.expire k := by
  unfold DbSlice.lookupExpire
  rw [h]

theorem statsOnMiss_db_arr (s : DbSlice) (m : UpdateStatsMode) :
    (s.statsOnMiss m).db_arr = s.db_arr := by
  cases m <;> rfl

theorem statsOnSuccess_db_arr (s : DbSlice) (m : UpdateStatsMode) :
    (s.statsOnSuccess m).db_arr = s.db_arr := by
  cases m <;> rfl

theorem sliceInv_statsOnMiss {s : DbSlice} (m : UpdateStatsMode) (hs : SliceInv s) :
    SliceInv (s.statsOnMiss m) :=
  sliceInv_of_dbarr_eq (statsOnMiss_db_arr s m) hs

theorem sliceInv_statsOnSuccess {s : DbSlice} (m : UpdateStatsMode) (hs : SliceInv s) :
    SliceInv (s.statsOnSuccess m) :=
  sliceInv_of_dbarr_eq (statsOnSuccess_db_arr s m) hs

theorem performDeletionExp_true_inv {s : DbSlice} (dbi : Nat) (k : Key) (hs : SliceInv s) :
    SliceInv (s.PerformDeletionExp dbi k true) := by
  apply sliceInv_updTable hs
  intro t _ ht
  simpa using tableInv_erase_both k ht

theorem performDeletion_inv {s : DbSlice} (dbi : Nat) (k : Key) (hs : SliceInv s) :
    SliceInv (s.PerformDeletion dbi k) := by
  unfold DbSlice.PerformDeletion
  cases hlp : s.lookupPrime dbi k with
  | none =>
    simp only
    apply sliceInv_updTable hs
    intro t hget ht
    have hkp : k ∉ akeys t.prime :=
      alookup_eq_none.mp (by rw [← lookupPrime_eq k hget]; exact hlp)
    have hke : k ∉ akeys t.expire := fun hmem => hkp (ht.2 k hmem)
    simpa using tableInv_erase_prime hke ht
  | some e =>
    cases hbit : e.value.hasExpire with
    | true =>
      simp only [hbit]
      apply sliceInv_updTable hs
      intro t _ ht
      simpa using tableInv_erase_both k ht
    | false =>
      simp only [hbit]
      apply sliceInv_updTable hs
      intro t hget ht
      have hmem : (k, e) ∈ t.prime := alookup_mem (by rw [← lookupPrime_eq k hget]; exact hlp)
      have hke : k ∉ akeys t.expire := by
        intro hx
        have := (ht.1 (k, e) hmem).mpr hx
        rw [hbit] at this
        exact Bool.false_ne_true this
      simpa using tableInv_erase_prime hke ht

theorem expireIfNeeded_inv {s : DbSlice} (dbi now : Nat) (k : Key) (hs : SliceInv s) :
    SliceInv (s.ExpireIfNeeded dbi now k).s := by
  unfold DbSlice.ExpireIfNeeded
  cases hle : s.lookupExpire dbi k with
  | none => exact hs
  | some delta =>
    simp only
    split
    · exact hs
    · apply sliceInv_of_dbarr_eq rfl
      apply performDeletionExp_true_inv
      split
      · exact sliceInv_of_dbarr_eq rfl hs
      · exact hs

theorem bumpUp_inv {s : DbSlice} (dbi : Nat) (k : Key) (e : Entry) (hs : SliceInv s) :
    SliceInv (s.BumpUp dbi k e) := by
  unfold DbSlice.BumpUp
  split
  · dsimp only [DbSlice.NextVersion]
    refine sliceInv_updTable ?_ ?_
    · exact sliceInv_of_dbarr_eq rfl hs
    · intro t _ ht
      simpa using tableInv_update_value
        (f := fun e0 => { e0 with version := s.version_counter + 1 }) (fun _ => rfl) ht
  · exact hs

theorem findCachingAndStats_inv {s1 : DbSlice} (dbi : Nat) (k : Key) (e : Entry)
    (exp : Option Key) (m : UpdateStatsMode) (hs : SliceInv s1) :
    SliceInv (s1.findCachingAndStats dbi k e exp m).s := by
  unfold DbSlice.findCachingAndStats
  dsimp only
  apply sliceInv_statsOnSuccess
  split
  · exact sliceInv_of_dbarr_eq rfl (bumpUp_inv dbi k _ hs)
  · exact hs

theorem findTail_inv {s : DbSlice} (dbi now : Nat) (k : Key) (e : Entry)
    (m : UpdateStatsMode) (hs : SliceInv s) :
    SliceInv (s.findTail dbi now k e m).s := by
  unfold DbSlice.findTail
  split
  · cases hr : s.ExpireIfNeeded dbi now k with
    | mk s1 it1 exp1 =>
      have hs1 : SliceInv s1 := by
        have hx := expireIfNeeded_inv dbi now k hs
        rw [hr] at hx
        exact hx
      cases it1 with
      | none => exact sliceInv_statsOnMiss m hs1
      | some k1 => exact findCachingAndStats_inv dbi k e exp1 m hs1
  · exact findCachingAndStats_inv dbi k e none m hs

theorem findInternal_inv {s : DbSlice} (dbi now : Nat) (k : Key)
    (req : Option Nat) (m : UpdateStatsMode) (hs : SliceInv s) :
    SliceInv (s.FindInternal dbi now k req m).s := by
  unfold DbSlice.FindInternal
  split
  · exact hs
  · cases hlp : s.lookupPrime dbi k with
    | none =>
      simp only [hlp]
      exact sliceInv_statsOnMiss m hs
    | some e =>
      simp only [hlp]
      cases req with
      | some t0 =>
        simp only
        split
        · exact sliceInv_statsOnMiss m hs
        · exact findTail_inv _ _ _ _ _ hs
      | none => exact findTail_inv _ _ _ _ _ hs

theorem preUpdate_inv {s : DbSlice} (dbi : Nat) (k : Key) (hs : SliceInv s) :
    SliceInv (s.PreUpdate dbi k) := by
  unfold DbSlice.PreUpdate
  dsimp only [DbSlice.NextVersion]
  refine sliceInv_updTable ?_ ?_
  · exact sliceInv_of_dbarr_eq rfl hs
  · intro t _ ht
    simpa using tableInv_update_value
      (f := fun e => { e with version := s.version_counter + 1 }) (fun _ => rfl) ht

/-! Characterization lemmas for the lookup and update paths. -/

theorem list_getD_set_self {α : Type} (l : List α) (i : Nat) (a d : α) (h : i < l.length) :
    (l.set i a).getD i d = a := by
  induction l generalizing i with
  | nil => simp at h
  | cons x xs ih =>
    cases i with
    | zero => rfl
    | succ j =>
      simp only [List.set, List.getD, List.get?]
      exact ih j (by simpa using h)

theorem list_getD_set_ne {α : Type} (l : List α) {i j : Nat} (a d : α) (h : i ≠ j) :
    (l.set i a).getD j d = l.getD j d := by
  induction l generalizing i j with
  | nil => rfl
  | cons x xs ih =>
    cases i with
    | zero =>
      cases j with
      | zero => exact absurd rfl h
      | succ j0 => rfl
    | succ i0 =>
      cases j with
      | zero => rfl
      | succ j0 =>
        simp only [List.set, List.getD, List.get?]
        exact ih (fun he => h (by rw [he]))

theorem getTable_lt_length {s : DbSlice} {dbi : Nat} {t : DbTable}
    (h : s.getTable dbi = some t) : dbi < s.db_arr.length := by
  by_contra hlen
  unfold DbSlice.getTable at h
  rw [List.getD_eq_default] at h
  · exact Option.noConfusion h
  · omega

theorem getTable_setTable_self {s : DbSlice} {dbi : Nat} {t t1 : DbTable}
    (h : s.getTable dbi = some t) : (s.setTable dbi t1).getTable dbi = some t1 := by
  unfold DbSlice.getTable DbSlice.setTable
  exact list_getD_set_self _ _ _ _ (getTable_lt_length h)

theorem getTable_setTable_ne {s : DbSlice} {dbi j : Nat} {t1 : DbTable} (h : dbi ≠ j) :
    (s.setTable dbi t1).getTable j = s.getTable j := by
  unfold DbSlice.getTable DbSlice.setTable
  exact list_getD_set_ne _ _ _ h

theorem getTable_updTable_self {s : DbSlice} {dbi : Nat} {t : DbTable} {f : DbTable → DbTable}
    (h : s.getTable dbi = some t) : (s.updTable dbi f).getTable dbi = some (f t) := by
  unfold DbSlice.updTable
  rw [h]
  exact getTable_setTable_self h

theorem getTable_updTable_ne {s : DbSlice} {dbi j : Nat} {f : DbTable → DbTable} (h : dbi ≠ j) :
    (s.updTable dbi f).getTable j = s.getTable j := by
  unfold DbSlice.updTable
  cases hget : s.getTable dbi with
  | none => rfl
  | some t => exact getTable_setTable_ne h

theorem getTable_congr {s1 s2 : DbSlice} (dbi : Nat) (h : s1.db_arr = s2.db_arr) :
    s1.getTable dbi = s2.getTable dbi := by
  unfold DbSlice.getTable
  rw [h]

theorem updTable_updTable {s : DbSlice} {dbi : Nat} (f g : DbTable → DbTable) :
    (s.updTable dbi f).updTable dbi g = s.updTable dbi (fun t => g (f t)) := by
  cases hget : s.getTable dbi with
  | none =>
    have h1 : s.updTable dbi f = s := by
      unfold DbSlice.updTable
      rw [hget]
    have h2 : s.updTable dbi (fun t => g (f t)) = s := by
      unfold DbSlice.updTable
      rw [hget]
    have h3 : s.updTable dbi g = s := by
      unfold DbSlice.updTable
      rw [hget]
    rw [h1, h3, h2]
  | some t =>
    have h1 : s.updTable dbi f = s.setTable dbi (f t) := by
      unfold DbSlice.updTable
      rw [hget]
    have h4 : (s.setTable dbi (f t)).getTable dbi = some (f t) := getTable_setTable_self hget
    have h2 : (s.setTable dbi (f t)).updTable dbi g =
        (s.setTable dbi (f t)).setTable dbi (g (f t)) := by
      unfold DbSlice.updTable
      rw [h4]
    have h3 : s.updTable dbi (fun t0 => g (f t0)) = s.setTable dbi (g (f t)) := by
      unfold DbSlice.updTable
      rw [hget]
    rw [h1, h2, h3]
    unfold DbSlice.setTable
    simp [List.set_set]

theorem alookup_aupdate {α : Type} (l : List (Key × α)) (k : Key) (f : α → α) :
    alookup (aupdate l k f) k = (alookup l k).map f := by
  induction l with
  | nil => rfl
  | cons p t ih =>
    by_cases h : p.1 = k
    · simp [alookup, aupdate, List.find?, h]
    · simpa [alookup, aupdate, List.find?, h] using ih

theorem bumpUp_table_spec {s : DbSlice} {dbi : Nat} {k : Key} {e : Entry} {t0 : DbTable}
    {e0 : Entry} (hget : s.getTable dbi = some t0) (he : alookup t0.prime k = some e0) :
    ∃ t1 e1, (s.BumpUp dbi k e).getTable dbi = some t1 ∧ alookup t1.prime k = some e1 ∧
      e1.value = e0.value ∧ t1.expire = t0.expire := by
  unfold DbSlice.BumpUp
  split
  · dsimp only [DbSlice.NextVersion]
    refine ⟨_, { e0 with version := s.version_counter + 1 },
      getTable_updTable_self hget, ?_, rfl, rfl⟩
    rw [alookup_aupdate, he]
    rfl
  · exact ⟨t0, e0, hget, he, rfl, rfl⟩

theorem findCachingAndStats_spec {s1 : DbSlice} {dbi : Nat} {k : Key} (e : Entry)
    (exp : Option Key) (m : UpdateStatsMode) {t0 : DbTable} {e0 : Entry}
    (hget : s1.getTable dbi = some t0) (he : alookup t0.prime k = some e0) :
    ∃ t1 e1, (s1.findCachingAndStats dbi k e exp m).s.getTable dbi = some t1 ∧
      alookup t1.prime k = some e1 ∧ e1.value = e0.value ∧
      t1.expire = t0.expire ∧
      (s1.findCachingAndStats dbi k e exp m).exp = exp ∧
      (s1.findCachingAndStats dbi k e exp m).status = .OK := by
  unfold DbSlice.findCachingAndStats
  dsimp only
  split
  · obtain ⟨t1, e1, hg1, hl1, hv1, he1⟩ :=
      bumpUp_table_spec (e := (s1.lookupPrime dbi k).getD e) (k := k) hget he
    refine ⟨t1, e1, ?_, hl1, hv1, he1, rfl, rfl⟩
    rw [getTable_congr dbi (statsOnSuccess_db_arr _ _)]
    exact hg1
  · refine ⟨t0, e0, ?_, he, rfl, rfl, rfl, rfl⟩
    rw [getTable_congr dbi (statsOnSuccess_db_arr _ _)]
    exact hget

theorem lookupPrime_congr {s1 s2 : DbSlice} (dbi : Nat) (k : Key) (h : s1.db_arr = s2.db_arr) :
    s1.lookupPrime dbi k = s2.lookupPrime dbi k := by
  unfold DbSlice.lookupPrime
  rw [getTable_congr dbi h]

theorem performDeletionExp_lookup_none (s : DbSlice) (dbi : Nat) (k : Key) (b : Bool) :
    (s.PerformDeletionExp dbi k b).lookupPrime dbi k = none := by
  unfold DbSlice.PerformDeletionExp
  cases hget : s.getTable dbi with
  | none =>
    have : s.updTable dbi (fun t =>
        { t with expire := if b then aerase t.expire k else t.expire,
                 prime := aerase t.prime k }) = s := by
      unfold DbSlice.updTable
      rw [hget]
    rw [this]
    unfold DbSlice.lookupPrime
    rw [hget]
  | some t =>
    rw [lookupPrime_eq k (getTable_updTable_self hget)]
    exact alookup_aerase_self t.prime k

theorem getTable_journal_append (s : DbSlice) (dbi : Nat) (j : List JournalEntry) :
    ({ s with journal := j } : DbSlice).getTable dbi = s.getTable dbi := rfl

theorem performDeletionExp_getTable {s : DbSlice} {dbi : Nat} {k : Key} {b : Bool}
    {t0 : DbTable} (hget : s.getTable dbi = some t0) :
    (s.PerformDeletionExp dbi k b).getTable dbi =
      some { t0 with
        expire := if b then aerase t0.expire k else t0.expire,
        prime := aerase t0.prime k } := by
  unfold DbSlice.PerformDeletionExp
  exact getTable_updTable_self hget

theorem findInternal_db_invalid {s : DbSlice} {dbi now : Nat} {k : Key} {req : Option Nat}
    {m : UpdateStatsMode} (hget : s.getTable dbi = none) :
    s.FindInternal dbi now k req m = ⟨.KEY_NOTFOUND, none, none, s⟩ := by
  unfold DbSlice.FindInternal
  have hv : s.IsDbValid dbi = false := by
    unfold DbSlice.IsDbValid
    rw [hget]
    rfl
  rw [hv]
  simp

theorem findInternal_db_valid {s : DbSlice} {dbi now : Nat} {k : Key} {req : Option Nat}
    {m : UpdateStatsMode} {t0 : DbTable} (hget : s.getTable dbi = some t0) :
    s.FindInternal dbi now k req m =
      (match s.lookupPrime dbi k with
       | none => ⟨.KEY_NOTFOUND, none, none, s.statsOnMiss m⟩
       | some e =>
         match req with
         | some ty =>
           if e.value.objType ≠ ty then ⟨.WRONG_TYPE, none, none, s.statsOnMiss m⟩
           else s.findTail dbi now k e m
         | none => s.findTail dbi now k e m) := by
  unfold DbSlice.FindInternal
  have hv : s.IsDbValid dbi = true := by
    unfold DbSlice.IsDbValid
    rw [hget]
    rfl
  rw [hv]
  simp

theorem expireIfNeeded_no_entry {s : DbSlice} {dbi now : Nat} {k : Key}
    (hle : s.lookupExpire dbi k = none) :
    s.ExpireIfNeeded dbi now k = ⟨s, some k, none⟩ := by
  unfold DbSlice.ExpireIfNeeded
  rw [hle]

theorem expireIfNeeded_not_expired {s : DbSlice} {dbi now : Nat} {k : Key} {delta : Nat}
    (hle : s.lookupExpire dbi k = some delta)
    (hcond : now < s.expire_base + delta ∨ s.is_replica = true ∨ s.expire_allowed = false) :
    s.ExpireIfNeeded dbi now k = ⟨s, some k, some k⟩ := by
  unfold DbSlice.ExpireIfNeeded
  rw [hle]
  dsimp only
  rw [if_pos hcond]

theorem expireIfNeeded_expired {s : DbSlice} {dbi now : Nat} {k : Key} {delta : Nat}
    (hle : s.lookupExpire dbi k = some delta)
    (hcond : ¬ (now < s.expire_base + delta ∨ s.is_replica = true ∨
      s.expire_allowed = false)) :
    s.ExpireIfNeeded dbi now k =
      ⟨{ ((if s.has_journal then { s with journal := s.journal ++ [⟨dbi, k⟩] }
            else s).PerformDeletionExp dbi k true) with
          events := { ((if s.has_journal then { s with journal := s.journal ++ [⟨dbi, k⟩] }
            else s).PerformDeletionExp dbi k true).events with
            expired_keys := ((if s.has_journal then
              { s with journal := s.journal ++ [⟨dbi, k⟩] }
              else s).PerformDeletionExp dbi k true).events.expired_keys + 1 } },
       none, none⟩ := by
  unfold DbSlice.ExpireIfNeeded
  rw [hle]
  dsimp only
  rw [if_neg hcond]

theorem expireIfNeeded_it_none {s : DbSlice} {dbi now : Nat} {k : Key}
    (h : (s.ExpireIfNeeded dbi now k).it = none) :
    (s.ExpireIfNeeded dbi now k).s.lookupPrime dbi k = none := by
  cases hle : s.lookupExpire dbi k with
  | none =>
    rw [expireIfNeeded_no_entry hle] at h
    exact Option.noConfusion h
  | some delta =>
    by_cases hcond : now < s.expire_base + delta ∨ s.is_replica = true ∨
        s.expire_allowed = false
    · rw [expireIfNeeded_not_expired hle hcond] at h
      exact Option.noConfusion h
    · rw [expireIfNeeded_expired hle hcond]
      dsimp only
      rw [lookupPrime_congr dbi k rfl]
      exact performDeletionExp_lookup_none _ dbi k true

theorem expireIfNeeded_getTable {s : DbSlice} {dbi : Nat} (now : Nat) (k : Key) {t0 : DbTable}
    (hget : s.getTable dbi = some t0) :
    ∃ t1, (s.ExpireIfNeeded dbi now k).s.getTable dbi = some t1 := by
  cases hle : s.lookupExpire dbi k with
  | none => exact ⟨t0, by rw [expireIfNeeded_no_entry hle]; exact hget⟩
  | some delta =>
    by_cases hcond : now < s.expire_base + delta ∨ s.is_replica = true ∨
        s.expire_allowed = false
    · exact ⟨t0, by rw [expireIfNeeded_not_expired hle hcond]; exact hget⟩
    · rw [expireIfNeeded_expired hle hcond]
      dsimp only
      by_cases hj : s.has_journal = true
      · rw [if_pos hj]
        have hget2 : ({ s with journal := s.journal ++ [⟨dbi, k⟩] } : DbSlice).getTable dbi =
            some t0 := hget
        exact ⟨_, performDeletionExp_getTable hget2⟩
      · rw [if_neg hj]
        exact ⟨_, performDeletionExp_getTable hget⟩

theorem findCachingAndStats_status (s1 : DbSlice) (dbi : Nat) (k : Key) (e : Entry)
    (exp : Option Key) (m : UpdateStatsMode) :
    (s1.findCachingAndStats dbi k e exp m).status = .OK := rfl

theorem findCachingAndStats_it (s1 : DbSlice) (dbi : Nat) (k : Key) (e : Entry)
    (exp : Option Key) (m : UpdateStatsMode) :
    (s1.findCachingAndStats dbi k e exp m).it = some k := rfl

/-- A Find that did not return OK (with no required type) reported
KEY_NOTFOUND and left no prime entry for the key behind. -/
theorem findInternal_not_ok {s : DbSlice} {dbi now : Nat} {k : Key} {m : UpdateStatsMode}
    (h : (s.FindInternal dbi now k none m).status ≠ .OK) :
    (s.FindInternal dbi now k none m).status = .KEY_NOTFOUND ∧
    (s.FindInternal dbi now k none m).s.lookupPrime dbi k = none := by
  cases hget : s.getTable dbi with
  | none =>
    rw [findInternal_db_invalid hget]
    refine ⟨rfl, ?_⟩
    unfold DbSlice.lookupPrime
    rw [hget]
  | some t0 =>
    rw [findInternal_db_valid hget] at h ⊢
    cases hlp : s.lookupPrime dbi k with
    | none =>
      refine ⟨rfl, ?_⟩
      rw [lookupPrime_congr dbi k (statsOnMiss_db_arr s m)]
      exact hlp
    | some e =>
      rw [hlp] at h
      dsimp only at h ⊢
      unfold DbSlice.findTail at h ⊢
      by_cases hbit : e.value.hasExpire = true
      · rw [if_pos hbit] at h ⊢
        cases hr : s.ExpireIfNeeded dbi now k with
        | mk s1 it1 exp1 =>
          rw [hr] at h
          cases it1 with
          | none =>
            refine ⟨rfl, ?_⟩
            dsimp only
            rw [lookupPrime_congr dbi k (statsOnMiss_db_arr _ m)]
            have hnone := expireIfNeeded_it_none
              (show (s.ExpireIfNeeded dbi now k).it = none by rw [hr])
            rw [hr] at hnone
            exact hnone
          | some k1 =>
            exact absurd (findCachingAndStats_status _ dbi k e _ m) h
      · rw [if_neg hbit] at h
        exact absurd (findCachingAndStats_status s dbi k e none m) h

/-- A Find that returned OK leaves a prime entry for the key with the value
it found, and when it reports a valid expire iterator the key is in the
expire table (the lazy-expiry path needs the slice invariant). -/
theorem findInternal_ok_spec {s : DbSlice} {dbi now : Nat} {k : Key} {req : Option Nat}
    {m : UpdateStatsMode} (hs : SliceInv s)
    (h : (s.FindInternal dbi now k req m).status = .OK) :
    ∃ t1 e1, (s.FindInternal dbi now k req m).s.getTable dbi = some t1 ∧
      alookup t1.prime k = some e1 ∧
      ((s.FindInternal dbi now k req m).exp.isSome = true → k ∈ akeys t1.expire) := by
  cases hget : s.getTable dbi with
  | none =>
    rw [findInternal_db_invalid hget] at h
    exact absurd h (by simp)
  | some t0 =>
    rw [findInternal_db_valid hget] at h ⊢
    cases hlp : s.lookupPrime dbi k with
    | none =>
      rw [hlp] at h
      dsimp only at h
      exact absurd h (by simp)
    | some e =>
      rw [hlp] at h
      dsimp only at h ⊢
      have hae : alookup t0.prime k = some e := by
        rw [← lookupPrime_eq k hget]
        exact hlp
      have htail : (s.findTail dbi now k e m).status = .OK →
          ∃ t1 e1, (s.findTail dbi now k e m).s.getTable dbi = some t1 ∧
            alookup t1.prime k = some e1 ∧
            ((s.findTail dbi now k e m).exp.isSome = true → k ∈ akeys t1.expire) := by
        intro hok
        unfold DbSlice.findTail at hok ⊢
        by_cases hbit : e.value.hasExpire = true
        · rw [if_pos hbit] at hok ⊢
          have hmemp : (k, e) ∈ t0.prime := alookup_mem hae
          have hkexp : k ∈ akeys t0.expire := by
            have ht0 := sliceInv_table hs hget
            exact (ht0.1 (k, e) hmemp).mp hbit
          have hles : ∃ delta, s.lookupExpire dbi k = some delta := by
            rw [lookupExpire_eq k hget]
            rcases akeys_mem_iff.mp hkexp with ⟨v, hvmem⟩
            exact alookup_isSome_of_mem hvmem
          rcases hles with ⟨delta, hle⟩
          by_cases hcond : now < s.expire_base + delta ∨ s.is_replica = true ∨
              s.expire_allowed = false
          · rw [expireIfNeeded_not_expired hle hcond] at hok ⊢
            obtain ⟨t1, e1, hg1, hl1, hv1, hx1, hexp1, hst1⟩ :=
              findCachingAndStats_spec e (some k) m hget hae
            refine ⟨t1, e1, hg1, hl1, ?_⟩
            rw [hexp1]
            intro _
            rw [hx1]
            exact hkexp
          · rw [expireIfNeeded_expired hle hcond] at hok
            exact absurd hok (by simp)
        · rw [if_neg hbit] at hok ⊢
          obtain ⟨t1, e1, hg1, hl1, hv1, hx1, hexp1, hst1⟩ :=
            findCachingAndStats_spec e none m hget hae
          refine ⟨t1, e1, hg1, hl1, ?_⟩
          rw [hexp1]
          intro hc
          exact absurd hc (by simp)
      cases req with
      | none => exact htail h
      | some ty =>
        dsimp only at h ⊢
        by_cases hty : e.value.objType ≠ ty
        · rw [if_pos hty] at h
          exact absurd h (by simp)
        · rw [if_neg hty] at h ⊢
          exact htail h

theorem alookup_cons_self {α : Type} (l : List (Key × α)) (k : Key) (v : α) :
    alookup ((k, v) :: l) k = some v := by
  simp [alookup, List.find?]

theorem aupdate_aupdate {α : Type} (l : List (Key × α)) (k : Key) (f g : α → α) :
    aupdate (aupdate l k f) k g = aupdate l k (fun x => g (f x)) := by
  unfold aupdate
  rw [List.map_map]
  have hfun : ((fun p : Key × α => if p.1 = k then (p.1, g p.2) else p) ∘
      (fun p : Key × α => if p.1 = k then (p.1, f p.2) else p)) =
      fun p : Key × α => if p.1 = k then (p.1, g (f p.2)) else p := by
    funext p
    by_cases h : p.1 = k <;> simp [Function.comp, h]
  rw [hfun]

theorem bumpUp_getTable {s : DbSlice} {dbi : Nat} {k : Key} {e : Entry} {t0 : DbTable}
    (hget : s.getTable dbi = some t0) :
    ∃ t1, (s.BumpUp dbi k e).getTable dbi = some t1 := by
  unfold DbSlice.BumpUp
  split
  · dsimp only [DbSlice.NextVersion]
    have hget2 : ({ s with version_counter := s.version_counter + 1 } : DbSlice).getTable dbi =
        some t0 := hget
    exact ⟨_, getTable_updTable_self hget2⟩
  · exact ⟨t0, hget⟩

theorem findCachingAndStats_getTable {s1 : DbSlice} {dbi : Nat} {k : Key} {e : Entry}
    {exp : Option Key} {m : UpdateStatsMode} {t0 : DbTable}
    (hget : s1.getTable dbi = some t0) :
    ∃ t1, (s1.findCachingAndStats dbi k e exp m).s.getTable dbi = some t1 := by
  unfold DbSlice.findCachingAndStats
  dsimp only
  split
  · rw [getTable_congr dbi (statsOnSuccess_db_arr _ _)]
    exact bumpUp_getTable (e := (s1.lookupPrime dbi k).getD e) hget
  · rw [getTable_congr dbi (statsOnSuccess_db_arr _ _)]
    exact ⟨t0, hget⟩

theorem findInternal_getTable {s : DbSlice} {dbi : Nat} (now : Nat) (k : Key)
    (req : Option Nat) (m : UpdateStatsMode) {t0 : DbTable}
    (hget : s.getTable dbi = some t0) :
    ∃ t1, (s.FindInternal dbi now k req m).s.getTable dbi = some t1 := by
  rw [findInternal_db_valid hget]
  cases hlp : s.lookupPrime dbi k with
  | none =>
    exact ⟨t0, by rw [getTable_congr dbi (statsOnMiss_db_arr _ _)]; exact hget⟩
  | some e =>
    dsimp only
    have htail : ∃ t1, (s.findTail dbi now k e m).s.getTable dbi = some t1 := by
      unfold DbSlice.findTail
      split
      · cases hr : s.ExpireIfNeeded dbi now k with
        | mk s1 it1 exp1 =>
          have hg1 : ∃ t1, s1.getTable dbi = some t1 := by
            have hx := expireIfNeeded_getTable now k hget
            rw [hr] at hx
            exact hx
          rcases hg1 with ⟨t1, hg1⟩
          cases it1 with
          | none =>
            exact ⟨t1, by rw [getTable_congr dbi (statsOnMiss_db_arr _ _)]; exact hg1⟩
          | some k1 => exact findCachingAndStats_getTable hg1
      · exact findCachingAndStats_getTable hget
    cases req with
    | none => exact htail
    | some ty =>
      dsimp only
      split
      · exact ⟨t0, by rw [getTable_congr dbi (statsOnMiss_db_arr _ _)]; exact hget⟩
      · exact htail

/-- A Find on an absent key in a valid database takes the plain miss path:
KEY_NOTFOUND with the stats-on-miss cleanup applied. -/
theorem findInternal_miss {s : DbSlice} {dbi now : Nat} {k : Key} {req : Option Nat}
    {m : UpdateStatsMode} {t0 : DbTable} (hget : s.getTable dbi = some t0)
    (hlp : s.lookupPrime dbi k = none) :
    s.FindInternal dbi now k req m = ⟨.KEY_NOTFOUND, none, none, s.statsOnMiss m⟩ := by
  rw [findInternal_db_valid hget, hlp]

theorem preUpdate_getTable {s : DbSlice} {dbi : Nat} {k : Key} {t0 : DbTable}
    (hget : s.getTable dbi = some t0) :
    (s.PreUpdate dbi k).getTable dbi = some
      { t0 with
        prime := aupdate t0.prime k (fun e => { e with version := s.version_counter + 1 }) } := by
  unfold DbSlice.PreUpdate
  dsimp only [DbSlice.NextVersion]
  exact getTable_updTable_self hget

theorem preUpdate_spec {s : DbSlice} {dbi : Nat} {k : Key} {t0 : DbTable} {e0 : Entry}
    (hget : s.getTable dbi = some t0) (he : alookup t0.prime k = some e0) :
    ∃ t1 e1, (s.PreUpdate dbi k).getTable dbi = some t1 ∧ alookup t1.prime k = some e1 ∧
      e1.value = e0.value ∧ t1.expire = t0.expire := by
  unfold DbSlice.PreUpdate
  dsimp only [DbSlice.NextVersion]
  refine ⟨_, { e0 with version := s.version_counter + 1 },
    getTable_updTable_self hget, ?_, rfl, rfl⟩
  rw [alookup_aupdate, he]
  rfl

theorem addOrFindInternal_inv {s : DbSlice} (dbi now : Nat) (k : Key)
    (loading insert_throws : Bool) (hs : SliceInv s) :
    SliceInv (s.AddOrFindInternal dbi now k loading insert_throws).s := by
  unfold DbSlice.AddOrFindInternal
  cases hget : s.getTable dbi with
  | none =>
    have hv : s.IsDbValid dbi = false := by
      unfold DbSlice.IsDbValid
      rw [hget]
      rfl
    rw [hv, if_pos rfl]
    exact hs
  | some t0 =>
    have hv : s.IsDbValid dbi = true := by
      unfold DbSlice.IsDbValid
      rw [hget]
      rfl
    rw [hv, if_neg (by simp)]
    dsimp only
    have hfi := findInternal_inv dbi now k none .kMutableStats hs
    by_cases hst : (s.FindInternal dbi now k none .kMutableStats).status = .OK
    · rw [if_pos hst]
      exact preUpdate_inv dbi k hfi
    · rw [if_neg hst]
      split
      · exact sliceInv_of_dbarr_eq rfl hfi
      · split
        · exact sliceInv_of_dbarr_eq rfl hfi
        · dsimp only [DbSlice.NextVersion]
          refine sliceInv_of_dbarr_eq rfl (sliceInv_updTable ?_ ?_)
          · exact sliceInv_of_dbarr_eq rfl hfi
          · intro t hget2 ht
            have hlp2 := (findInternal_not_ok hst).2
            have hget3 : (s.FindInternal dbi now k none .kMutableStats).s.getTable dbi =
                some t := hget2
            have halo : alookup t.prime k = none := by
              rw [← lookupPrime_eq k hget3]
              exact hlp2
            have hkp : k ∉ akeys t.prime := alookup_eq_none.mp halo
            have hke : k ∉ akeys t.expire := fun hmem => hkp (ht.2 k hmem)
            simpa using tableInv_insert_fresh hkp hke rfl ht

/-- An AddOrFind that returned OK leaves a live prime entry for the key,
and when it reports a valid expire iterator the key is in the expire
table. -/
theorem addOrFind_ok_spec {s : DbSlice} {dbi now : Nat} {k : Key}
    {loading insert_throws : Bool} (hs : SliceInv s)
    (h : (s.AddOrFindInternal dbi now k loading insert_throws).status = .OK) :
    ∃ t1 e1, (s.AddOrFindInternal dbi now k loading insert_throws).s.getTable dbi = some t1 ∧
      alookup t1.prime k = some e1 ∧
      ((s.AddOrFindInternal dbi now k loading insert_throws).exp.isSome = true →
        k ∈ akeys t1.expire) := by
  unfold DbSlice.AddOrFindInternal at h ⊢
  cases hget : s.getTable dbi with
  | none =>
    have hv : s.IsDbValid dbi = false := by
      unfold DbSlice.IsDbValid
      rw [hget]
      rfl
    rw [hv, if_pos rfl] at h
    exact absurd h (by simp)
  | some t0 =>
    have hv : s.IsDbValid dbi = true := by
      unfold DbSlice.IsDbValid
      rw [hget]
      rfl
    rw [hv, if_neg (by simp)] at h ⊢
    dsimp only at h ⊢
    by_cases hst : (s.FindInternal dbi now k none .kMutableStats).status = .OK
    · rw [if_pos hst] at h ⊢
      dsimp only
      obtain ⟨t1, e1, hg1, hl1, hx1⟩ := findInternal_ok_spec hs hst
      obtain ⟨t2, e2, hg2, hl2, hv2, hx2⟩ := preUpdate_spec hg1 hl1
      refine ⟨t2, e2, hg2, hl2, ?_⟩
      intro hx
      rw [hx2]
      exact hx1 hx
    · rw [if_neg hst] at h ⊢
      split at h
      · exact absurd h (by simp)
      · split at h
        · exact absurd h (by simp)
        · dsimp only [DbSlice.NextVersion] at h ⊢
          rename_i hc1 hc2
          rw [if_neg hc1, if_neg hc2]
          dsimp only
          obtain ⟨tf, hgf⟩ := findInternal_getTable now k none .kMutableStats hget
          have hgf2 : ({ (s.FindInternal dbi now k none .kMutableStats).s with
              version_counter :=
                (s.FindInternal dbi now k none .kMutableStats).s.version_counter + 1 } :
              DbSlice).getTable dbi = some tf := hgf
          refine ⟨_, Entry.mk false (PrimeValue.mk 0 false)
              ((s.FindInternal dbi now k none .kMutableStats).s.version_counter + 1),
            getTable_updTable_self hgf2, ?_, ?_⟩
          · exact alookup_cons_self tf.prime k _
          · intro hx
            simp at hx

theorem addOrUpdateInternal_inv {s : DbSlice} (dbi now : Nat) (k : Key) (obj : PrimeValue)
    (expire_at_ms : Nat) (force_update loading insert_throws : Bool) (hs : SliceInv s) :
    SliceInv (s.AddOrUpdateInternal dbi now k obj expire_at_ms force_update loading
      insert_throws).s := by
  unfold DbSlice.AddOrUpdateInternal
  have hres := addOrFindInternal_inv dbi now k loading insert_throws hs
  by_cases hst : (s.AddOrFind dbi now k loading insert_throws).status ≠ .OK
  · rw [if_pos hst]
    exact hres
  · rw [if_neg hst]
    have hst0 : (s.AddOrFindInternal dbi now k loading insert_throws).status = .OK :=
      not_not.mp hst
    obtain ⟨tr, er, hgr, hlr, hxr⟩ := addOrFind_ok_spec hs hst0
    by_cases hnew : (s.AddOrFind dbi now k loading insert_throws).is_new = false ∧
        force_update = false
    · rw [if_pos hnew]
      exact hres
    · rw [if_neg hnew]
      dsimp only
      by_cases hexp : expire_at_ms ≠ 0
      · rw [if_pos hexp]
        dsimp only
        by_cases hforce : (s.AddOrFind dbi now k loading insert_throws).exp.isSome = true ∧
            force_update = true
        · rw [if_pos hforce]
          rw [updTable_updTable, updTable_updTable]
          refine sliceInv_updTable hres ?_
          intro t hget ht
          have hteq : t = tr := by
            have hx := hgr.symm.trans hget
            exact (Option.some.inj hx).symm
          subst hteq
          have hke : k ∈ akeys t.expire := hxr hforce.1
          dsimp only
          rw [aupdate_aupdate]
          exact tableInv_set_bit_update_expire (fun e0 => rfl) hke ht
        · rw [if_neg hforce]
          rw [updTable_updTable, updTable_updTable]
          refine sliceInv_updTable hres ?_
          intro t hget ht
          have hteq : t = tr := by
            have hx := hgr.symm.trans hget
            exact (Option.some.inj hx).symm
          subst hteq
          have hkp : k ∈ akeys t.prime :=
            akeys_mem_iff.mpr ⟨er, alookup_mem hlr⟩
          dsimp only
          rw [aupdate_aupdate]
          exact tableInv_set_bit_insert_expire (fun e0 => rfl) hkp ht
      · rw [if_neg hexp]
        dsimp only
        refine sliceInv_updTable hres ?_
        intro t hget ht
        exact tableInv_update_value (fun e0 => rfl) ht

theorem addExpire_inv {s : DbSlice} (dbi : Nat) (k : Key) (at_ms : Nat) (hs : SliceInv s) :
    SliceInv (s.AddExpire dbi k at_ms) := by
  unfold DbSlice.AddExpire
  cases hget : s.getTable dbi with
  | none => exact hs
  | some t =>
    dsimp only
    split
    · exact hs
    · split
      · exact hs
      · rename_i hkp hke
        intro od hod
        rcases List.mem_or_eq_of_mem_set hod with hmem | heq
        · exact hs od hmem
        · subst heq
          have ht := sliceInv_table hs hget
          have hkp2 : k ∈ akeys t.prime := by
            simp only [Bool.not_eq_false] at hkp
            simpa using hkp
          exact tableInv_set_bit_insert_expire (fun e0 => rfl) hkp2 ht

theorem removeExpire_inv {s : DbSlice} (dbi : Nat) (k : Key) (hs : SliceInv s) :
    SliceInv (s.RemoveExpire dbi k).2 := by
  unfold DbSlice.RemoveExpire
  cases hlp : s.lookupPrime dbi k with
  | none => exact hs
  | some e =>
    dsimp only
    split
    · refine sliceInv_updTable hs ?_
      intro t _ ht
      simpa using tableInv_clear_bit_erase k ht
    · exact hs

theorem updateExpire_inv {s : DbSlice} (dbi : Nat) (k : Key) (at_ms : Nat) (hs : SliceInv s) :
    SliceInv (s.UpdateExpire dbi k at_ms).2 := by
  unfold DbSlice.UpdateExpire
  split
  · exact removeExpire_inv dbi k hs
  · cases hlp : s.lookupPrime dbi k with
    | none => exact hs
    | some e =>
      dsimp only
      split
      · exact addExpire_inv dbi k at_ms hs
      · exact hs

theorem del_inv {s : DbSlice} (dbi : Nat) (k : Key) (hs : SliceInv s) :
    SliceInv (s.Del dbi k).2 := by
  unfold DbSlice.Del
  cases hlp : s.lookupPrime dbi k with
  | none => exact hs
  | some e =>
    dsimp only
    refine sliceInv_of_dbarr_eq rfl ?_
    exact performDeletion_inv dbi k (sliceInv_of_dbarr_eq rfl hs)

theorem updateExpireParams_inv {s : DbSlice} (dbi now : Nat) (k : Key) (p : ExpireParams)
    (hs : SliceInv s) : SliceInv (s.UpdateExpireParams dbi now k p).2 := by
  unfold DbSlice.UpdateExpireParams
  split
  · exact removeExpire_inv dbi k hs
  · dsimp only
    split
    · exact hs
    · split
      · exact del_inv dbi k hs
      · cases hle : s.lookupExpire dbi k with
        | some delta =>
          dsimp only
          split
          · exact hs
          · split
            · exact hs
            · split
              · exact hs
              · refine sliceInv_updTable hs ?_
                intro t _ ht
                exact tableInv_update_expire_values ht
        | none =>
          dsimp only
          split
          · exact hs
          · exact addExpire_inv dbi k _ hs

theorem evict_inv {s : DbSlice} (dbi : Nat) (can_evict : Bool) (eb : HotspotBuckets)
    (hs : SliceInv s) : SliceInv (s.Evict dbi can_evict eb).s := by
  unfold DbSlice.Evict
  split
  · exact hs
  · dsimp only
    cases hl : ((eb.stash_buckets.getD (eb.key_hash % eb.stash_buckets.length) []).getLast?).getD
        none with
    | none => exact hs
    | some k =>
      dsimp only
      cases hlp : s.lookupPrime dbi k with
      | none => exact hs
      | some e =>
        dsimp only
        split
        · exact hs
        · split
          · exact hs
          · refine performDeletion_inv dbi k ?_
            split
            · exact sliceInv_of_dbarr_eq rfl hs
            · exact hs

theorem foldl_del_inv (c : Key × Entry → Bool) (l : List (Key × Entry)) :
    ∀ s0 : DbSlice, SliceInv s0 →
      SliceInv (l.foldl (fun acc p => if c p then acc.PerformDeletion 0 p.1 else acc) s0) := by
  induction l with
  | nil => exact fun s0 hs0 => hs0
  | cons p t ih =>
    intro s0 hs0
    rw [List.foldl_cons]
    by_cases hc : c p = true
    · rw [if_pos hc]
      exact ih _ (performDeletion_inv 0 p.1 hs0)
    · rw [if_neg hc]
      exact ih _ hs0

theorem flushSlotsFb_inv {s : DbSlice} (slot_ids : List Nat) (hs : SliceInv s) :
    SliceInv (s.FlushSlotsFb slot_ids) := by
  unfold DbSlice.FlushSlotsFb
  dsimp only [DbSlice.NextVersion]
  cases hget : ({ s with version_counter := s.version_counter + 1 } : DbSlice).getTable 0 with
  | none => exact sliceInv_of_dbarr_eq rfl hs
  | some t0 =>
    exact foldl_del_inv
      (fun p => (slot_ids.contains (s.key_slot p.1)) && decide (p.2.version < s.version_counter + 1))
      t0.prime _ (sliceInv_of_dbarr_eq rfl hs)

theorem findMutableInternal_inv {s : DbSlice} (dbi now : Nat) (k : Key) (req : Option Nat)
    (hs : SliceInv s) : SliceInv (s.FindMutableInternal dbi now k req).s := by
  unfold DbSlice.FindMutableInternal
  dsimp only
  split
  · exact preUpdate_inv dbi k (findInternal_inv dbi now k req .kMutableStats hs)
  · exact findInternal_inv dbi now k req .kMutableStats hs

/-- The DbSlice operations the expire invariant is checked across: the
operations the claim lists, plus the read paths that can lazily expire. -/
inductive DbOp where
  | opFindReadOnly (dbi now : Nat) (k : Key) (req : Option Nat)
  | opFindMutable (dbi now : Nat) (k : Key) (req : Option Nat)
  | opAddOrFind (dbi now : Nat) (k : Key) (loading insert_throws : Bool)
  | opAddOrUpdate (dbi now : Nat) (k : Key) (obj : PrimeValue) (expire_at_ms : Nat)
      (loading insert_throws : Bool)
  | opAddNew (dbi now : Nat) (k : Key) (obj : PrimeValue) (expire_at_ms : Nat)
      (loading insert_throws : Bool)
  | opAddExpire (dbi : Nat) (k : Key) (at_ms : Nat)
  | opRemoveExpire (dbi : Nat) (k : Key)
  | opUpdateExpire (dbi : Nat) (k : Key) (at_ms : Nat)
  | opUpdateExpireParams (dbi now : Nat) (k : Key) (p : ExpireParams)
  | opDel (dbi : Nat) (k : Key)
  | opExpireIfNeeded (dbi now : Nat) (k : Key)
  | opEvict (dbi : Nat) (can_evict : Bool) (eb : HotspotBuckets)
  | opFlushSlots (slot_ids : List Nat)

/-- The slice state an operation leaves behind. -/
def applyOp (op : DbOp) (s : DbSlice) : DbSlice :=
  match op with
  | .opFindReadOnly dbi now k req => (s.FindInternal dbi now k req .kReadStats).s
  | .opFindMutable dbi now k req => (s.FindMutableInternal dbi now k req).s
  | .opAddOrFind dbi now k l th => (s.AddOrFind dbi now k l th).s
  | .opAddOrUpdate dbi now k obj e l th => (s.AddOrUpdate dbi now k obj e l th).s
  | .opAddNew dbi now k obj e l th => (s.AddNew dbi now k obj e l th).s
  | .opAddExpire dbi k a => s.AddExpire dbi k a
  | .opRemoveExpire dbi k => (s.RemoveExpire dbi k).2
  | .opUpdateExpire dbi k a => (s.UpdateExpire dbi k a).2
  | .opUpdateExpireParams dbi now k p => (s.UpdateExpireParams dbi now k p).2
  | .opDel dbi k => (s.Del dbi k).2
  | .opExpireIfNeeded dbi now k => (s.ExpireIfNeeded dbi now k).s
  | .opEvict dbi ce eb => (s.Evict dbi ce eb).s
  | .opFlushSlots ids => (s.FlushSlots ids).1

/-- C2: for every key present in a DbTable's PrimeTable, and after every
DbSlice operation (AddOrFind, AddOrUpdate, AddNew, AddExpire, RemoveExpire,
UpdateExpire, Del, lazy expiration, eviction, slot flush), the value's
HasExpire bit is set iff the DbTable's ExpireTable contains an entry for
that key.  SliceInv is exactly that bit/entry equivalence together with the
containment of expire keys in prime keys that the CHECKs of the source rely
on, quantified over every created table of the slice. -/
theorem C2_expire_invariant_preserved (op : DbOp) (s : DbSlice) (hs : SliceInv s) :
    SliceInv (applyOp op s) := by
  cases op with
  | opFindReadOnly dbi now k req => exact findInternal_inv dbi now k req .kReadStats hs
  | opFindMutable dbi now k req => exact findMutableInternal_inv dbi now k req hs
  | opAddOrFind dbi now k l th => exact addOrFindInternal_inv dbi now k l th hs
  | opAddOrUpdate dbi now k obj e l th => exact addOrUpdateInternal_inv dbi now k obj e true l th hs
  | opAddNew dbi now k obj e l th => exact addOrUpdateInternal_inv dbi now k obj e false l th hs
  | opAddExpire dbi k a => exact addExpire_inv dbi k a hs
  | opRemoveExpire dbi k => exact removeExpire_inv dbi k hs
  | opUpdateExpire dbi k a => exact updateExpire_inv dbi k a hs
  | opUpdateExpireParams dbi now k p => exact updateExpireParams_inv dbi now k p hs
  | opDel dbi k => exact del_inv dbi k hs
  | opExpireIfNeeded dbi now k => exact expireIfNeeded_inv dbi now k hs
  | opEvict dbi ce eb => exact evict_inv dbi ce eb hs
  | opFlushSlots ids => exact flushSlotsFb_inv ids hs

/-- A concrete table used by witnesses: two keys, one carrying an expire
entry with the HasExpire bit set. -/
def c2Table : DbTable :=
  { prime := [("a", ⟨false, ⟨0, true⟩, 3⟩), ("b", ⟨false, ⟨0, false⟩, 4⟩)],
    expire := [("a", 500)],
    trans_locks := [],
    watched_keys := [] }

/-- A concrete slice state used by witnesses. -/
def c2State : DbSlice :=
  { db_arr := [some c2Table],
    events := {},
    expire_base := 0,
    expire_allowed := true,
    is_replica := false,
    caching_mode := false,
    change_cb := [],
    bumped_items := [],
    memory_budget := 1000,
    version_counter := 10,
    deletion_count := 0,
    has_journal := true,
    journal := [],
    key_slot := fun k => k.length % 16384 }

/-- C2 witness: the invariant holds of the concrete slice and is preserved
by a concrete AddOrUpdate that overwrites the expiring key with no new
deadline. -/
theorem C2_expire_invariant_preserved_witness :
    SliceInv c2State ∧
    SliceInv (applyOp (.opAddOrUpdate 0 5 "a" ⟨1, false⟩ 0 false false) c2State) :=
  ⟨by decide, C2_expire_invariant_preserved
    (.opAddOrUpdate 0 5 "a" ⟨1, false⟩ 0 false false) c2State (by decide)⟩

theorem updTable_events (s : DbSlice) (dbi : Nat) (f : DbTable → DbTable) :
    (s.updTable dbi f).events = s.events := by
  unfold DbSlice.updTable
  split <;> rfl

theorem updTable_journal (s : DbSlice) (dbi : Nat) (f : DbTable → DbTable) :
    (s.updTable dbi f).journal = s.journal := by
  unfold DbSlice.updTable
  split <;> rfl

theorem bumpUp_events (s : DbSlice) (dbi : Nat) (k : Key) (e : Entry) :
    (s.BumpUp dbi k e).events = s.events := by
  unfold DbSlice.BumpUp
  split
  · dsimp only [DbSlice.NextVersion]
    rw [updTable_events]
  · rfl

theorem statsOnMiss_expired (s : DbSlice) (m : UpdateStatsMode) :
    (s.statsOnMiss m).events.expired_keys = s.events.expired_keys := by
  cases m <;> rfl

theorem statsOnSuccess_expired (s : DbSlice) (m : UpdateStatsMode) :
    (s.statsOnSuccess m).events.expired_keys = s.events.expired_keys := by
  cases m <;> rfl

theorem findCachingAndStats_expired (s1 : DbSlice) (dbi : Nat) (k : Key) (e : Entry)
    (exp : Option Key) (m : UpdateStatsMode) :
    (s1.findCachingAndStats dbi k e exp m).s.events.expired_keys =
      s1.events.expired_keys := by
  unfold DbSlice.findCachingAndStats
  dsimp only
  split
  · refine (statsOnSuccess_expired _ m).trans ?_
    exact congrArg (fun ev => ev.expired_keys)
      (bumpUp_events s1 dbi k ((s1.lookupPrime dbi k).getD e))
  · exact statsOnSuccess_expired s1 m

/-- C1 (amended): a Find variant carrying a required object type that sees
a stored value of a different type returns WRONG_TYPE, and the access IS
counted, because the update_stats_on_miss cleanup (db_slice.cc:449) fires
on this return path: the result state is exactly the input state with
misses incremented (read-stats variants) or mutations incremented
(mutable-stats variants); the tables themselves are untouched. -/
theorem C1_wrong_type_counts_access {s : DbSlice} {dbi now : Nat} {k : Key} {y : Nat}
    {m : UpdateStatsMode} {t : DbTable} {e : Entry}
    (hget : s.getTable dbi = some t) (hlp : s.lookupPrime dbi k = some e)
    (hty : e.value.objType ≠ y) :
    (s.FindInternal dbi now k (some y) m).status = .WRONG_TYPE ∧
    (s.FindInternal dbi now k (some y) m).s = s.statsOnMiss m ∧
    (s.statsOnMiss .kReadStats).events.misses = s.events.misses + 1 ∧
    (s.statsOnMiss .kMutableStats).events.mutations = s.events.mutations + 1 := by
  rw [findInternal_db_valid hget, hlp]
  dsimp only
  rw [if_pos hty]
  exact ⟨rfl, rfl, rfl, rfl⟩

/-- C1 counterexample: on a concrete slice, a typed read of a key holding a
string (ObjType 0) with required type 2 returns WRONG_TYPE and events_
.misses moves from 0 to 1 — the access is counted, contrary to the claim
that misses is unchanged by that call. -/
theorem C1_wrong_type_counts_access_cex :
    (c2State.FindReadOnlyTyped 0 5 "b" 2).status = .WRONG_TYPE ∧
    c2State.events.misses = 0 ∧
    (c2State.FindReadOnlyTyped 0 5 "b" 2).s.events.misses = 1 := by
  decide

/-- C1 witness: the amended theorem applied at the concrete input of the
counterexample. -/
theorem C1_wrong_type_counts_access_witness :
    (c2State.getTable 0 = some c2Table ∧
      c2State.lookupPrime 0 "b" = some ⟨false, ⟨0, false⟩, 4⟩ ∧
      (⟨false, ⟨0, false⟩, 4⟩ : Entry).value.objType ≠ 2) ∧
    ((c2State.FindInternal 0 5 "b" (some 2) .kReadStats).status = .WRONG_TYPE ∧
     (c2State.FindInternal 0 5 "b" (some 2) .kReadStats).s =
       c2State.statsOnMiss .kReadStats ∧
     (c2State.statsOnMiss .kReadStats).events.misses = c2State.events.misses + 1 ∧
     (c2State.statsOnMiss .kMutableStats).events.mutations =
       c2State.events.mutations + 1) :=
  ⟨⟨by decide, by decide, by decide⟩,
   C1_wrong_type_counts_access (t := c2Table) (e := ⟨false, ⟨0, false⟩, 4⟩)
     (by decide) (by decide) (by decide)⟩

/-- C3: for an entry with an expire deadline read through a Find variant on
a non-replica slice with expiration allowed: when now is at or past the
deadline — including exact equality — the entry is deleted within the same
call, expired_keys is incremented and KEY_NOTFOUND is returned; when now is
before the deadline the entry is returned and expired_keys is unchanged. -/
theorem C3_find_expires_at_deadline {s : DbSlice} {dbi now : Nat} {k : Key}
    {m : UpdateStatsMode} {t : DbTable} {e : Entry} {d : Nat}
    (hget : s.getTable dbi = some t) (hlp : s.lookupPrime dbi k = some e)
    (hbit : e.value.hasExpire = true) (hle : s.lookupExpire dbi k = some d)
    (hrep : s.is_replica = false) (hallow : s.expire_allowed = true) :
    (s.expire_base + d ≤ now →
      (s.FindInternal dbi now k none m).status = .KEY_NOTFOUND ∧
      (s.FindInternal dbi now k none m).s.lookupPrime dbi k = none ∧
      (s.FindInternal dbi now k none m).s.events.expired_keys =
        s.events.expired_keys + 1) ∧
    (now < s.expire_base + d →
      (s.FindInternal dbi now k none m).status = .OK ∧
      (s.FindInternal dbi now k none m).it = some k ∧
      (s.FindInternal dbi now k none m).s.events.expired_keys = s.events.expired_keys) := by
  rw [findInternal_db_valid hget, hlp]
  dsimp only
  unfold DbSlice.findTail
  rw [if_pos hbit]
  constructor
  · intro hnow
    have hcond : ¬ (now < s.expire_base + d ∨ s.is_replica = true ∨
        s.expire_allowed = false) := by
      simp [hrep, hallow]
      omega
    rw [expireIfNeeded_expired hle hcond]
    refine ⟨rfl, ?_, ?_⟩
    · dsimp only
      rw [lookupPrime_congr dbi k (statsOnMiss_db_arr _ m)]
      have hnone := expireIfNeeded_it_none
        (show (s.ExpireIfNeeded dbi now k).it = none by
          rw [expireIfNeeded_expired hle hcond])
      rw [expireIfNeeded_expired hle hcond] at hnone
      exact hnone
    · dsimp only
      rw [statsOnMiss_expired]
      show ((if s.has_journal = true then
          { s with journal := s.journal ++ [⟨dbi, k⟩] } else s).PerformDeletionExp
          dbi k true).events.expired_keys + 1 = s.events.expired_keys + 1
      unfold DbSlice.PerformDeletionExp
      rw [updTable_events]
      split <;> rfl
  · intro hnow
    rw [expireIfNeeded_not_expired hle (Or.inl hnow)]
    refine ⟨findCachingAndStats_status _ dbi k e _ m, findCachingAndStats_it _ dbi k e _ m, ?_⟩
    exact findCachingAndStats_expired s dbi k e (some k) m

/-- C3 witness: the theorem applied on a concrete slice at the exact
boundary now = ExpireTime, showing the entry expires there. -/
theorem C3_find_expires_at_deadline_witness :
    (c2State.getTable 0 = some c2Table ∧
      c2State.lookupPrime 0 "a" = some ⟨false, ⟨0, true⟩, 3⟩ ∧
      (⟨false, ⟨0, true⟩, 3⟩ : Entry).value.hasExpire = true ∧
      c2State.lookupExpire 0 "a" = some 500 ∧
      c2State.is_replica = false ∧ c2State.expire_allowed = true ∧
      c2State.expire_base + 500 ≤ 500) ∧
    ((c2State.FindInternal 0 500 "a" none .kReadStats).status = .KEY_NOTFOUND ∧
     (c2State.FindInternal 0 500 "a" none .kReadStats).s.lookupPrime 0 "a" = none ∧
     (c2State.FindInternal 0 500 "a" none .kReadStats).s.events.expired_keys =
       c2State.events.expired_keys + 1) :=
  ⟨⟨by decide, by decide, by decide, by decide, by decide, by decide, by decide⟩,
   (C3_find_expires_at_deadline (m := .kReadStats)
     (show c2State.getTable 0 = some c2Table by decide)
     (show c2State.lookupPrime 0 "a" = some ⟨false, ⟨0, true⟩, 3⟩ by decide)
     (show (⟨false, ⟨0, true⟩, 3⟩ : Entry).value.hasExpire = true by decide)
     (show c2State.lookupExpire 0 "a" = some 500 by decide)
     (by decide) (by decide)).1
   (show c2State.expire_base + 500 ≤ 500 by decide)⟩

theorem updTable_bumped (s : DbSlice) (dbi : Nat) (f : DbTable → DbTable) :
    (s.updTable dbi f).bumped_items = s.bumped_items := by
  unfold DbSlice.updTable
  split <;> rfl

theorem statsOnSuccess_bumped (s : DbSlice) (m : UpdateStatsMode) :
    (s.statsOnSuccess m).bumped_items = s.bumped_items := by
  cases m <;> rfl

theorem statsOnSuccess_bumpups (s : DbSlice) (m : UpdateStatsMode) :
    (s.statsOnSuccess m).events.bumpups = s.events.bumpups := by
  cases m <;> rfl

/-- One FindReadOnly pass, keeping only the resulting slice. -/
def cachedRead (dbi now : Nat) (k : Key) (s : DbSlice) : DbSlice :=
  (s.FindInternal dbi now k none .kReadStats).s

/-- n further FindReadOnly passes on the same key. -/
def cachedReadN (dbi now : Nat) (k : Key) : Nat → DbSlice → DbSlice
  | 0, s => s
  | n + 1, s => cachedReadN dbi now k n (cachedRead dbi now k s)

/-- Once the key is recorded in bumped_items_, a further read leaves the
tables and the bumped_items_ set untouched: CanBumpDown refuses the move
whatever the sticky bit. -/
theorem cachedRead_stable {s : DbSlice} {dbi now : Nat} {k : Key} {t : DbTable} {e : Entry}
    (hget : s.getTable dbi = some t) (hlp : alookup t.prime k = some e)
    (hbit : e.value.hasExpire = false) (hmem : s.bumped_items.contains k = true) :
    (cachedRead dbi now k s).db_arr = s.db_arr ∧
    (cachedRead dbi now k s).bumped_items = s.bumped_items := by
  unfold cachedRead
  rw [findInternal_db_valid hget]
  have hlp' : s.lookupPrime dbi k = some e := by rw [lookupPrime_eq k hget]; exact hlp
  rw [hlp']
  dsimp only
  unfold DbSlice.findTail
  rw [if_neg (by simp [hbit])]
  unfold DbSlice.findCachingAndStats
  dsimp only
  split
  · have hcb : CanBumpDown s.bumped_items ((s.lookupPrime dbi k).getD e).sticky k = false := by
      unfold CanBumpDown
      rw [hmem]
      simp
    unfold DbSlice.BumpUp
    rw [hcb, if_neg (show ¬ (false = true) by decide)]
    constructor
    · rw [statsOnSuccess_db_arr]
    · rw [statsOnSuccess_bumped]
      dsimp only
      rw [hmem]
      simp
  · exact ⟨statsOnSuccess_db_arr s .kReadStats, statsOnSuccess_bumped s .kReadStats⟩

/-- Iterating reads after the key is recorded changes neither the table
nor bumped_items_. -/
theorem cachedReadN_stable {dbi now : Nat} {k : Key} :
    ∀ (n : Nat) (s2 : DbSlice) (t : DbTable) (e : Entry),
      s2.getTable dbi = some t → alookup t.prime k = some e →
      e.value.hasExpire = false → s2.bumped_items.contains k = true →
      (cachedReadN dbi now k n s2).db_arr = s2.db_arr ∧
      (cachedReadN dbi now k n s2).bumped_items = s2.bumped_items := by
  intro n
  induction n with
  | zero => exact fun s2 t e _ _ _ _ => ⟨rfl, rfl⟩
  | succ n ih =>
    intro s2 t e hget hlp hbit hmem
    obtain ⟨hdb, hbu⟩ := cachedRead_stable hget hlp hbit hmem
    have hget2 : (cachedRead dbi now k s2).getTable dbi = some t := by
      rw [getTable_congr dbi hdb]
      exact hget
    have hmem2 : (cachedRead dbi now k s2).bumped_items.contains k = true := by
      rw [hbu]
      exact hmem
    obtain ⟨hdb2, hbu2⟩ := ih (cachedRead dbi now k s2) t e hget2 hlp hbit hmem2
    exact ⟨by rw [show cachedReadN dbi now k (n + 1) s2 =
        cachedReadN dbi now k n (cachedRead dbi now k s2) from rfl, hdb2, hdb],
      by rw [show cachedReadN dbi now k (n + 1) s2 =
        cachedReadN dbi now k n (cachedRead dbi now k s2) from rfl, hbu2, hbu]⟩

/-- Setting an entry's bucket version, as a bump or PreUpdate does. -/
def setVersion (v : Nat) (e0 : Entry) : Entry :=
  { e0 with version := v }

/-- The first caching-mode read of a bumpable key moves it: the entry gets
the fresh NextVersion, bumpups is counted and the key joins bumped_items_. -/
theorem cachedRead_first {s : DbSlice} {dbi now : Nat} {k : Key} {t : DbTable} {e : Entry}
    (hget : s.getTable dbi = some t) (hlp : alookup t.prime k = some e)
    (hsticky : e.sticky = false) (hbit : e.value.hasExpire = false)
    (hcache : s.caching_mode = true) (hmem : s.bumped_items.contains k = false) :
    (cachedRead dbi now k s).getTable dbi =
      some { t with prime := aupdate t.prime k (setVersion (s.version_counter + 1)) } ∧
    alookup (aupdate t.prime k (setVersion (s.version_counter + 1))) k =
      some (setVersion (s.version_counter + 1) e) ∧
    (cachedRead dbi now k s).events.bumpups = s.events.bumpups + 1 ∧
    (cachedRead dbi now k s).bumped_items = k :: s.bumped_items := by
  unfold cachedRead
  rw [findInternal_db_valid hget]
  have hlp' : s.lookupPrime dbi k = some e := by rw [lookupPrime_eq k hget]; exact hlp
  rw [hlp']
  dsimp only
  unfold DbSlice.findTail
  rw [if_neg (by simp [hbit])]
  unfold DbSlice.findCachingAndStats
  dsimp only
  rw [if_pos hcache, hlp']
  dsimp only [Option.getD]
  have hcb : CanBumpDown s.bumped_items e.sticky k = true := by
    unfold CanBumpDown
    rw [hmem, hsticky]
    rfl
  unfold DbSlice.BumpUp
  rw [hcb, if_pos rfl]
  dsimp only [DbSlice.NextVersion]
  have hget2 : ({ s with version_counter := s.version_counter + 1 } : DbSlice).getTable dbi =
      some t := hget
  refine ⟨?_, ?_, ?_, ?_⟩
  · rw [getTable_congr dbi (statsOnSuccess_db_arr _ _)]
    exact getTable_updTable_self hget2
  · rw [alookup_aupdate, hlp]
    rfl
  · rw [statsOnSuccess_bumpups]
    dsimp only
    rw [updTable_events]
  · rw [statsOnSuccess_bumped]
    dsimp only
    rw [updTable_bumped]
    dsimp only
    rw [hmem]
    simp [updTable_bumped]

/-- C4: in caching mode with change callbacks registered, the first read of
a non-sticky live key moves it (its version becomes the fresh NextVersion,
events_.bumpups is counted) and the key is recorded in bumped_items_; any
number of further reads of the same key within the command leave the table
and bumped_items_ exactly as after the first read, because
PrimeBumpPolicy::CanBumpDown refuses every key already in bumped_items_
(sticky or not); OnCbFinish clears bumped_items_ so the next command can
bump again. -/
theorem C4_caching_bump_once (s : DbSlice) (dbi now : Nat) (k : Key)
    {t : DbTable} {e : Entry}
    (hget : s.getTable dbi = some t) (hlp : alookup t.prime k = some e)
    (hsticky : e.sticky = false) (hbit : e.value.hasExpire = false)
    (hcache : s.caching_mode = true) ( _hcb : s.change_cb ≠ [])
    (hmem : s.bumped_items.contains k = false) :
    ((cachedRead dbi now k s).getTable dbi =
        some { t with prime := aupdate t.prime k (setVersion (s.version_counter + 1)) } ∧
      alookup (aupdate t.prime k (setVersion (s.version_counter + 1))) k =
        some (setVersion (s.version_counter + 1) e) ∧
      (cachedRead dbi now k s).events.bumpups = s.events.bumpups + 1 ∧
      (cachedRead dbi now k s).bumped_items = k :: s.bumped_items) ∧
    (∀ n, (cachedReadN dbi now k n (cachedRead dbi now k s)).db_arr =
        (cachedRead dbi now k s).db_arr ∧
      (cachedReadN dbi now k n (cachedRead dbi now k s)).bumped_items =
        k :: s.bumped_items) ∧
    (∀ (l : List Key) (b : Bool), l.contains k = true → CanBumpDown l b k = false) ∧
    (∀ s2 : DbSlice, (s2.OnCbFinish).bumped_items = []) := by
  obtain ⟨h1, h2, h3, h4⟩ := cachedRead_first hget hlp hsticky hbit hcache hmem
  refine ⟨⟨h1, h2, h3, h4⟩, ?_, ?_, fun s2 => rfl⟩
  · intro n
    have hmem2 : (cachedRead dbi now k s).bumped_items.contains k = true := by
      rw [h4]
      simp
    obtain ⟨hdb2, hbu2⟩ := cachedReadN_stable n (cachedRead dbi now k s) _ _ h1 h2 hbit hmem2
    exact ⟨hdb2, by rw [hbu2, h4]⟩
  · intro l b hl
    unfold CanBumpDown
    rw [hl]
    simp

/-- A concrete slice in caching mode for exercising the bump-once policy. -/
def c4State : DbSlice := { c2State with caching_mode := true, change_cb := [(1, 4)] }

/-- C4 witness: the theorem applied on a concrete caching-mode slice. -/
theorem C4_caching_bump_once_witness :
    (cachedRead 0 7 "b" c4State).events.bumpups = c4State.events.bumpups + 1 ∧
    (cachedRead 0 7 "b" c4State).bumped_items = "b" :: c4State.bumped_items ∧
    (cachedReadN 0 7 "b" 1 (cachedRead 0 7 "b" c4State)).bumped_items =
      "b" :: c4State.bumped_items ∧
    CanBumpDown ["b"] false "b" = false ∧
    (DbSlice.OnCbFinish c4State).bumped_items = [] := by
  obtain ⟨⟨h1, h2, h3, h4⟩, h5, h6, h7⟩ :=
    C4_caching_bump_once c4State 0 7 "b" (t := c2Table) (e := ⟨false, ⟨0, false⟩, 4⟩)
      (by decide) (by decide) (by decide) (by decide) (by decide) (by decide) (by decide)
  exact ⟨h3, h4, (h5 1).2, h6 ["b"] false (by decide), h7 c4State⟩

/-- C5: AddOrFind on an absent key returns OUT_OF_MEMORY exactly when the
memory limit applies (not replica, not loading), caching mode is off and
the remaining budget minus the key size is negative, or the PrimeTable
insert throws bad_alloc; every rejection increments insertion_rejections
and adds no entry (db_arr_ unchanged); otherwise a fresh entry is inserted
(OK, is_new); in caching mode with no throw the insertion succeeds and the
constructed eviction policy has can_evict set (when not a replica). -/
theorem C5_oom_rejection (s : DbSlice) (dbi now : Nat) (k : Key)
    (loading thr : Bool) {t : DbTable}
    (hget : s.getTable dbi = some t) (habs : s.lookupPrime dbi k = none) :
    ((s.AddOrFind dbi now k loading thr).status = .OUT_OF_MEMORY ↔
      ((s.is_replica = false ∧ loading = false ∧ s.caching_mode = false ∧
        s.memory_budget - (k.length : Int) < 0) ∨ thr = true)) ∧
    ((s.AddOrFind dbi now k loading thr).status = .OUT_OF_MEMORY →
      (s.AddOrFind dbi now k loading thr).s.events.insertion_rejections =
        s.events.insertion_rejections + 1 ∧
      (s.AddOrFind dbi now k loading thr).s.db_arr = s.db_arr) ∧
    ((s.AddOrFind dbi now k loading thr).status ≠ .OUT_OF_MEMORY →
      (s.AddOrFind dbi now k loading thr).status = .OK ∧
      (s.AddOrFind dbi now k loading thr).is_new = true) ∧
    (s.caching_mode = true → thr = false →
      (s.AddOrFind dbi now k loading thr).status = .OK ∧
      (s.AddOrFind dbi now k loading thr).policy_can_evict = !s.is_replica) := by
  unfold DbSlice.AddOrFind DbSlice.AddOrFindInternal
  have hv : s.IsDbValid dbi = true := by
    unfold DbSlice.IsDbValid
    rw [hget]
    rfl
  rw [if_neg (by simp [hv])]
  rw [findInternal_miss hget habs]
  dsimp only [DbSlice.statsOnMiss]
  rw [if_neg (show ¬ ((.KEY_NOTFOUND : OpStatus) = .OK) by decide)]
  by_cases h1 : ((!s.is_replica && !loading) && !s.caching_mode &&
      decide (s.memory_budget - (k.length : Int) < 0)) = true
  · rw [if_pos h1]
    simp only [Bool.and_eq_true, Bool.not_eq_true', decide_eq_true_eq] at h1
    refine ⟨⟨fun _ => Or.inl ⟨h1.1.1.1, h1.1.1.2, h1.1.2, h1.2⟩, fun _ => rfl⟩,
      fun _ => ⟨rfl, rfl⟩, fun hne => absurd rfl hne, ?_⟩
    intro hcm _
    rw [hcm] at h1
    exact absurd h1.1.2 (by decide)
  · rw [if_neg h1]
    by_cases hthr : thr = true
    · rw [if_pos hthr]
      refine ⟨⟨fun _ => Or.inr hthr, fun _ => rfl⟩,
        fun _ => ⟨rfl, rfl⟩, fun hne => absurd rfl hne, ?_⟩
      intro _ hthr'
      rw [hthr'] at hthr
      exact absurd hthr (by decide)
    · rw [if_neg hthr]
      have hthr' : thr = false := by
        cases thr
        · rfl
        · exact absurd rfl hthr
      dsimp only [DbSlice.NextVersion]
      refine ⟨⟨fun h => absurd h (by decide), ?_⟩, fun h => absurd h (by decide),
        fun _ => ⟨rfl, rfl⟩, ?_⟩
      · rintro (⟨ha, hb, hc, hd⟩ | he)
        · rw [ha, hb, hc] at h1
          simp [hd] at h1
        · exact absurd he hthr
      · intro hcm _
        refine ⟨rfl, ?_⟩
        show (s.caching_mode && !s.is_replica) = !s.is_replica
        rw [hcm]
        simp

/-- A concrete slice with a zero memory budget (non-caching). -/
def c5State : DbSlice := { c2State with memory_budget := 0 }

/-- C5 witness: the theorem applied on a zero-budget non-caching slice
inserting an absent key (rejected, counted, nothing inserted). -/
theorem C5_oom_rejection_witness :
    (c5State.getTable 0 = some c2Table ∧ c5State.lookupPrime 0 "q" = none) ∧
    (((c5State.AddOrFind 0 9 "q" false false).status = .OUT_OF_MEMORY ↔
      ((c5State.is_replica = false ∧ false = false ∧ c5State.caching_mode = false ∧
        c5State.memory_budget - (("q" : Key).length : Int) < 0) ∨ false = true)) ∧
    ((c5State.AddOrFind 0 9 "q" false false).status = .OUT_OF_MEMORY →
      (c5State.AddOrFind 0 9 "q" false false).s.events.insertion_rejections =
        c5State.events.insertion_rejections + 1 ∧
      (c5State.AddOrFind 0 9 "q" false false).s.db_arr = c5State.db_arr) ∧
    ((c5State.AddOrFind 0 9 "q" false false).status ≠ .OUT_OF_MEMORY →
      (c5State.AddOrFind 0 9 "q" false false).status = .OK ∧
      (c5State.AddOrFind 0 9 "q" false false).is_new = true) ∧
    (c5State.caching_mode = true → false = false →
      (c5State.AddOrFind 0 9 "q" false false).status = .OK ∧
      (c5State.AddOrFind 0 9 "q" false false).policy_can_evict = !c5State.is_replica)) :=
  ⟨⟨by decide, by decide⟩,
   C5_oom_rejection c5State 0 9 "q" false false (t := c2Table) (by decide) (by decide)⟩

/-- C6 counterexample: with eviction enabled and the chosen stash bucket's
last slot empty, Evict returns 1 yet evicts nothing and leaves the slice
untouched — the claim that Evict returns 0 exactly in the refusal cases and
that every return of 1 corresponds to one evicted entry is false: the
`return 1` and the ShiftRight sit outside the occupancy check
(db_slice.cc:183, 207-209). -/
theorem C6_evict_return_one_cex :
    (c2State.Evict 0 true ⟨0, [[none, none]]⟩).ret = 1 ∧
    (c2State.Evict 0 true ⟨0, [[none, none]]⟩).evicted = 0 ∧
    (c2State.Evict 0 true ⟨0, [[none, none]]⟩).s.db_arr = c2State.db_arr := by
  decide

/-- C6 (amended): with runtime eviction enabled, Evict targets the last
slot of stash bucket key_hash mod kNumStashBuckets; if that slot holds a
sticky key, or a key present in the table's trans_locks, it returns 0 and
deletes nothing; if the slot holds an unlocked non-sticky key it journals a
synthetic DEL, deletes the key and returns 1 having evicted one entry; but
if the slot is EMPTY it still shifts the bucket and returns 1 while
evicting nothing; with eviction disabled it returns 0. -/
theorem C6_evict_spec (s : DbSlice) (dbi : Nat) (eb : HotspotBuckets) :
    (((eb.stash_buckets.getD (eb.key_hash % eb.stash_buckets.length) []).getLast?).getD none
        = none →
      s.Evict dbi true eb = ⟨1, 0, s⟩) ∧
    (∀ (k : Key) (e : Entry) (t : DbTable),
      ((eb.stash_buckets.getD (eb.key_hash % eb.stash_buckets.length) []).getLast?).getD none
        = some k →
      s.lookupPrime dbi k = some e → s.getTable dbi = some t →
      (e.sticky = true → s.Evict dbi true eb = ⟨0, 0, s⟩) ∧
      (e.sticky = false → t.trans_locks.contains k = true →
        s.Evict dbi true eb = ⟨0, 0, s⟩) ∧
      (e.sticky = false → t.trans_locks.contains k = false → s.has_journal = true →
        (s.Evict dbi true eb).ret = 1 ∧ (s.Evict dbi true eb).evicted = 1 ∧
        (s.Evict dbi true eb).s.journal = s.journal ++ [⟨dbi, k⟩] ∧
        (s.Evict dbi true eb).s.lookupPrime dbi k = none)) ∧
    (s.Evict dbi false eb = ⟨0, 0, s⟩) := by
  refine ⟨?_, ?_, rfl⟩
  · intro hempty
    unfold DbSlice.Evict
    rw [if_neg (show ¬ (true = false) by decide)]
    dsimp only
    rw [hempty]
  · intro k e t hslot hlp hget
    unfold DbSlice.Evict
    rw [if_neg (show ¬ (true = false) by decide)]
    dsimp only
    rw [hslot]
    dsimp only
    rw [hlp]
    dsimp only
    refine ⟨?_, ?_, ?_⟩
    · intro hst
      rw [if_pos hst]
    · intro hst hlk
      rw [hst]
      rw [if_neg (show ¬ (false = true) by decide)]
      rw [hget]
      dsimp only
      rw [hlk]
      rfl
    · intro hst hlk hj
      rw [hst]
      rw [if_neg (show ¬ (false = true) by decide)]
      rw [hget]
      dsimp only
      rw [hlk]
      rw [if_neg (show ¬ (false = true) by decide)]
      rw [if_pos hj]
      refine ⟨rfl, rfl, ?_, ?_⟩
      · show (({ s with journal := s.journal ++ [⟨dbi, k⟩] } : DbSlice).PerformDeletion
          dbi k).journal = s.journal ++ [⟨dbi, k⟩]
        unfold DbSlice.PerformDeletion DbSlice.PerformDeletionExp
        rw [updTable_journal]
      · show (({ s with journal := s.journal ++ [⟨dbi, k⟩] } : DbSlice).PerformDeletion
          dbi k).lookupPrime dbi k = none
        unfold DbSlice.PerformDeletion
        exact performDeletionExp_lookup_none _ dbi k _

/-- C6 witness for the amended theorem: a concrete occupied-slot eviction
(of the non-sticky unlocked key) and a concrete disabled call. -/
theorem C6_evict_spec_witness :
    ((c2State.Evict 0 true ⟨1, [[none, none], [none, some "b"]]⟩).ret = 1 ∧
     (c2State.Evict 0 true ⟨1, [[none, none], [none, some "b"]]⟩).evicted = 1 ∧
     (c2State.Evict 0 true ⟨1, [[none, none], [none, some "b"]]⟩).s.journal =
       c2State.journal ++ [⟨0, "b"⟩] ∧
     (c2State.Evict 0 true ⟨1, [[none, none], [none, some "b"]]⟩).s.lookupPrime 0 "b" =
       none) ∧
    c2State.Evict 0 false ⟨1, [[none, none], [none, some "b"]]⟩ = ⟨0, 0, c2State⟩ := by
  obtain ⟨h1, h2, h3⟩ := C6_evict_spec c2State 0 ⟨1, [[none, none], [none, some "b"]]⟩
  exact ⟨(h2 "b" ⟨false, ⟨0, false⟩, 4⟩ c2Table (by decide) (by decide) (by decide)).2.2
    (by decide) (by decide) (by decide), h3⟩

theorem performDeletion_getTable_prime {s : DbSlice} {dbi : Nat} {k : Key} {t : DbTable}
    (hget : s.getTable dbi = some t) :
    ∃ t1, (s.PerformDeletion dbi k).getTable dbi = some t1 ∧
      t1.prime = aerase t.prime k := by
  unfold DbSlice.PerformDeletion
  exact ⟨_, performDeletionExp_getTable hget, rfl⟩

/-- The FlushSlotsFb traversal: folding the conditional deletion over a
list of entries removes exactly the keys of the entries passing the
condition. -/
theorem foldl_del_prime (c : Key × Entry → Bool) :
    ∀ (l : List (Key × Entry)) (s0 : DbSlice) (tc : DbTable), s0.getTable 0 = some tc →
      ∃ t1, (l.foldl (fun acc p => if c p then acc.PerformDeletion 0 p.1 else acc)
          s0).getTable 0 = some t1 ∧
        ∀ q : Key × Entry, q ∈ t1.prime ↔
          q ∈ tc.prime ∧ ∀ p ∈ l, c p = true → q.1 ≠ p.1 := by
  intro l
  induction l with
  | nil =>
    intro s0 tc hget
    exact ⟨tc, hget, fun q => ⟨fun h => ⟨h, fun p hp => absurd hp (List.not_mem_nil p)⟩,
      fun h => h.1⟩⟩
  | cons p rest ih =>
    intro s0 tc hget
    rw [List.foldl_cons]
    by_cases hc : c p = true
    · rw [if_pos hc]
      obtain ⟨tc1, hget1, hprime1⟩ := performDeletion_getTable_prime hget
      obtain ⟨t1, hget2, hiff⟩ := ih (s0.PerformDeletion 0 p.1) tc1 hget1
      refine ⟨t1, hget2, fun q => ?_⟩
      rw [hiff q, hprime1, mem_aerase]
      constructor
      · rintro ⟨⟨hq, hne⟩, hrest⟩
        refine ⟨hq, ?_⟩
        intro p' hp' hc'
        rcases List.mem_cons.mp hp' with h | h
        · rw [h]
          exact hne
        · exact hrest p' h hc'
      · rintro ⟨hq, hall⟩
        exact ⟨⟨hq, hall p (List.mem_cons_self p rest) hc⟩,
          fun p' h hc' => hall p' (List.mem_cons_of_mem p h) hc'⟩
    · rw [if_neg hc]
      obtain ⟨t1, hget2, hiff⟩ := ih s0 tc hget
      refine ⟨t1, hget2, fun q => ?_⟩
      rw [hiff q]
      constructor
      · rintro ⟨hq, hrest⟩
        refine ⟨hq, fun p' hp' hc' => ?_⟩
        rcases List.mem_cons.mp hp' with h | h
        · rw [h] at hc'
          exact absurd hc' hc
        · exact hrest p' h hc'
      · rintro ⟨hq, hall⟩
        exact ⟨hq, fun p' h hc' => hall p' (List.mem_cons_of_mem p h) hc'⟩

/-- C7: FlushSlotsFb captures next_version = NextVersion() once at entry
and deletes exactly the entries whose key's slot is in slot_ids and whose
bucket version is strictly below next_version; entries at or above
next_version and entries of other slots are preserved.  (Keys are unique
in a hash table; the Nodup hypothesis records that.) -/
theorem C7_flush_slots_version_filter {s : DbSlice} {slot_ids : List Nat} {t : DbTable}
    (hget : s.getTable 0 = some t) (hnd : (akeys t.prime).Nodup) :
    ∃ t1, (s.FlushSlotsFb slot_ids).getTable 0 = some t1 ∧
      ∀ q : Key × Entry, q ∈ t1.prime ↔ q ∈ t.prime ∧
        ¬(slot_ids.contains (s.key_slot q.1) = true ∧
          q.2.version < (s.NextVersion).1) := by
  unfold DbSlice.FlushSlotsFb
  dsimp only [DbSlice.NextVersion]
  have hget2 : ({ s with version_counter := s.version_counter + 1 } : DbSlice).getTable 0 =
      some t := hget
  rw [hget2]
  dsimp only
  obtain ⟨t1, hg, hiff⟩ := foldl_del_prime
    (fun p => slot_ids.contains (s.key_slot p.1) && decide (p.2.version < s.version_counter + 1))
    t.prime { s with version_counter := s.version_counter + 1 } t hget2
  refine ⟨t1, hg, fun q => ?_⟩
  rw [hiff q]
  constructor
  · rintro ⟨hq, hall⟩
    refine ⟨hq, ?_⟩
    rintro ⟨hs, hv⟩
    exact hall q hq (by simp only [Bool.and_eq_true, decide_eq_true_eq]; exact ⟨hs, hv⟩) rfl
  · rintro ⟨hq, hncond⟩
    refine ⟨hq, ?_⟩
    intro p hp hc hkey
    have hpq : p = q := List.inj_on_of_nodup_map hnd hp hq hkey.symm
    rw [hpq] at hc
    simp only [Bool.and_eq_true, decide_eq_true_eq] at hc
    exact hncond hc

/-- C7 witness: the theorem applied on a concrete slice flushing slot 1
(both stored keys fall in slot 1 with versions below next_version). -/
theorem C7_flush_slots_version_filter_witness :
    (c2State.getTable 0 = some c2Table ∧ (akeys c2Table.prime).Nodup) ∧
    (∃ t1, (c2State.FlushSlotsFb [1]).getTable 0 = some t1 ∧
      ∀ q : Key × Entry, q ∈ t1.prime ↔ q ∈ c2Table.prime ∧
        ¬(List.contains [1] (c2State.key_slot q.1) = true ∧
          q.2.version < (c2State.NextVersion).1)) :=
  ⟨⟨by decide, by decide⟩, C7_flush_slots_version_filter (by decide) (by decide)⟩

/-- Under the source's DCHECK (every registered version at most
upper_bound) and the registration-order sorting, the loop delivers exactly
the callbacks with bucket_version < v < upper_bound. -/
theorem flushChange_filter (bv ub : Nat) :
    ∀ (cbs : List (Nat × Nat)), cbs.Pairwise (fun a b => a.1 < b.1) →
      (∀ c ∈ cbs, c.1 ≤ ub) →
      FlushChangeToEarlierCallbacks cbs bv ub =
        cbs.filter (fun c => decide (bv < c.1) && decide (c.1 < ub)) := by
  intro cbs
  induction cbs with
  | nil => intro _ _; rfl
  | cons c rest ih =>
    intro hord hub
    unfold FlushChangeToEarlierCallbacks
    by_cases hc : c.1 = ub
    · rw [if_pos hc]
      cases rest with
      | nil =>
        rw [List.filter_cons]
        rw [if_neg (by simp [hc])]
        rfl
      | cons d rest2 =>
        exfalso
        have h1 : c.1 < d.1 := (List.pairwise_cons.mp hord).1 d (List.mem_cons_self d rest2)
        have h2 : d.1 ≤ ub := hub d (List.mem_cons_of_mem c (List.mem_cons_self d rest2))
        omega
    · rw [if_neg hc]
      have hlt : c.1 < ub := by
        have := hub c (List.mem_cons_self c rest)
        omega
      have ihr := ih (List.pairwise_cons.mp hord).2
        (fun d hd => hub d (List.mem_cons_of_mem c hd))
      by_cases hbv : bv < c.1
      · rw [if_pos hbv, List.filter_cons, if_pos (by simp [hbv, hlt]), ihr]
      · rw [if_neg hbv, List.filter_cons, if_neg (by simp [hbv]), ihr]

/-- C8 counterexample: on a version-ordered callback list [(1, f10),
(3, f30)] with bucket version 0 and upper_bound 2, the loop also invokes
the callback registered at version 3, which does not satisfy v <
upper_bound — the loop only stops at a callback whose version EQUALS
upper_bound (db_slice.cc:1146), so the claimed window is wrong whenever a
version beyond upper_bound is present (the source only DCHECKs against
that). -/
theorem C8_flush_change_window_cex :
    ([(1, 10), (3, 30)] : List (Nat × Nat)).Pairwise (fun a b => a.1 < b.1) ∧
    (3, 30) ∈ FlushChangeToEarlierCallbacks [(1, 10), (3, 30)] 0 2 ∧
    ¬ ((3 : Nat) < 2) := by
  decide

/-- C8 (amended): when every registered version is at most upper_bound —
the source's DCHECK_LE, guaranteed by taking upper_bound from a later
NextVersion() — and the list is ordered by registration version (as
RegisterOnChange builds it), FlushChangeToEarlierCallbacks delivers the
notice to exactly the callbacks with bucket_version < v < upper_bound, in
increasing version order; RegisterOnChange indeed appends under a fresh
NextVersion(). -/
theorem C8_flush_change_window {cbs : List (Nat × Nat)} {bv ub : Nat}
    (hord : cbs.Pairwise (fun a b => a.1 < b.1)) (hub : ∀ c ∈ cbs, c.1 ≤ ub) :
    (∀ c : Nat × Nat, c ∈ FlushChangeToEarlierCallbacks cbs bv ub ↔
      c ∈ cbs ∧ bv < c.1 ∧ c.1 < ub) ∧
    (FlushChangeToEarlierCallbacks cbs bv ub).Pairwise (fun a b => a.1 < b.1) ∧
    (∀ (s : DbSlice) (cb : Nat), (s.RegisterOnChange cb).2.change_cb =
      s.change_cb ++ [((s.NextVersion).1, cb)]) := by
  rw [flushChange_filter bv ub cbs hord hub]
  refine ⟨?_, ?_, fun s cb => rfl⟩
  · intro c
    rw [List.mem_filter]
    simp only [Bool.and_eq_true, decide_eq_true_eq, and_assoc]
  · exact List.Pairwise.sublist (List.filter_sublist cbs) hord

/-- C8 witness: the amended theorem applied on a concrete ordered list
whose versions respect the DCHECK bound. -/
theorem C8_flush_change_window_witness :
    (([(1, 10), (3, 30)] : List (Nat × Nat)).Pairwise (fun a b => a.1 < b.1) ∧
      (∀ c ∈ ([(1, 10), (3, 30)] : List (Nat × Nat)), c.1 ≤ 4)) ∧
    ((∀ c : Nat × Nat, c ∈ FlushChangeToEarlierCallbacks [(1, 10), (3, 30)] 0 4 ↔
        c ∈ ([(1, 10), (3, 30)] : List (Nat × Nat)) ∧ 0 < c.1 ∧ c.1 < 4) ∧
      (FlushChangeToEarlierCallbacks [(1, 10), (3, 30)] 0 4).Pairwise
        (fun a b => a.1 < b.1) ∧
      (∀ (s : DbSlice) (cb : Nat), (s.RegisterOnChange cb).2.change_cb =
        s.change_cb ++ [((s.NextVersion).1, cb)])) :=
  ⟨⟨by decide, by decide⟩, C8_flush_change_window (by decide) (by decide)⟩

/-- The FlushSlotsFb traversal deletes through db index 0 only: tables at
every other index are untouched by each fold step. -/
theorem foldl_del_frame (c : Key × Entry → Bool) :
    ∀ (l : List (Key × Entry)) (s0 : DbSlice) (i : Nat), i ≠ 0 →
      (l.foldl (fun acc p => if c p then acc.PerformDeletion 0 p.1 else acc)
        s0).getTable i = s0.getTable i := by
  intro l
  induction l with
  | nil => intro s0 i _; rfl
  | cons p rest ih =>
    intro s0 i hi
    rw [List.foldl_cons]
    by_cases hc : c p = true
    · rw [if_pos hc, ih _ i hi]
      unfold DbSlice.PerformDeletion DbSlice.PerformDeletionExp
      exact getTable_updTable_ne (Ne.symm hi)
    · rw [if_neg hc, ih _ i hi]

/-- C9: a slot flush only touches database index 0: FlushSlots and
FlushSlotsFb leave the DbTable at every other index unchanged, the watch
invalidation FlushSlots performs is returned untouched alongside, and
InvalidateSlotWatches depends only on db_arr_[0] (through its watched_keys)
and the slot map — two slices agreeing there invalidate identically. -/
theorem C9_flush_slots_frame (s : DbSlice) (slot_ids : List Nat) (i : Nat) (hi : i ≠ 0) :
    (s.FlushSlots slot_ids).1.getTable i = s.getTable i ∧
    (s.FlushSlotsFb slot_ids).getTable i = s.getTable i ∧
    (s.FlushSlots slot_ids).2 = s.InvalidateSlotWatches slot_ids ∧
    (∀ s2 : DbSlice, s2.getTable 0 = s.getTable 0 → s2.key_slot = s.key_slot →
      s2.InvalidateSlotWatches slot_ids = s.InvalidateSlotWatches slot_ids) := by
  have hfb : (s.FlushSlotsFb slot_ids).getTable i = s.getTable i := by
    unfold DbSlice.FlushSlotsFb
    dsimp only [DbSlice.NextVersion]
    cases hg : ({ s with version_counter := s.version_counter + 1 } : DbSlice).getTable 0 with
    | none => rfl
    | some t0 =>
      rw [foldl_del_frame _ t0.prime _ i hi]
      rfl
  refine ⟨hfb, hfb, rfl, ?_⟩
  intro s2 hg hk
  unfold DbSlice.InvalidateSlotWatches
  rw [hg, hk]

/-- C9 witness: the theorem applied on a concrete slice at index 1. -/
theorem C9_flush_slots_frame_witness :
    (1 : Nat) ≠ 0 ∧
    ((c2State.FlushSlots [1]).1.getTable 1 = c2State.getTable 1 ∧
     (c2State.FlushSlotsFb [1]).getTable 1 = c2State.getTable 1 ∧
     (c2State.FlushSlots [1]).2 = c2State.InvalidateSlotWatches [1] ∧
     (∀ s2 : DbSlice, s2.getTable 0 = c2State.getTable 0 → s2.key_slot = c2State.key_slot →
       s2.InvalidateSlotWatches [1] = c2State.InvalidateSlotWatches [1])) :=
  ⟨by decide, C9_flush_slots_frame c2State [1] 1 (by decide)⟩

theorem outgoing_fold_filterMap :
    ∀ (flows : List (Option SliceSlotMigration)) (a : MigrationState),
      flows.foldl
        (fun ms sm => match sm with | some m => stateMin ms m.GetState | none => ms) a =
      (flows.filterMap id).foldl (fun ms m => stateMin ms m.GetState) a := by
  intro flows
  induction flows with
  | nil => intro a; rfl
  | cons o rest ih =>
    intro a
    cases o with
    | none =>
      rw [List.foldl_cons]
      rw [show (none :: rest : List (Option SliceSlotMigration)).filterMap id =
        rest.filterMap id from rfl]
      exact ih a
    | some m =>
      rw [List.foldl_cons]
      rw [show (some m :: rest : List (Option SliceSlotMigration)).filterMap id =
        m :: rest.filterMap id from rfl]
      rw [List.foldl_cons]
      exact ih (stateMin a m.GetState)

theorem outgoing_fold_all_none :
    ∀ (flows : List (Option SliceSlotMigration)) (a : MigrationState),
      (∀ f ∈ flows, f = none) →
      flows.foldl
        (fun ms sm => match sm with | some m => stateMin ms m.GetState | none => ms) a = a := by
  intro flows
  induction flows with
  | nil => intro a _; rfl
  | cons o rest ih =>
    intro a h
    have ho : o = none := h o (List.mem_cons_self o rest)
    rw [ho, List.foldl_cons]
    exact ih a (fun f hf => h f (List.mem_cons_of_mem o hf))

/-- C10: OutgoingMigration::GetState is the min-fold over only the started
(non-null) flows, seeded with C_STABLE_SYNC; a migration with no started
flow reports C_STABLE_SYNC, and a started flow in C_FULL_SYNC whose
streamer reports IsSnapshotFinished() contributes C_STABLE_SYNC. -/
theorem C10_outgoing_state_min :
    (∀ flows : List (Option SliceSlotMigration), OutgoingMigrationGetState flows =
      (flows.filterMap id).foldl (fun ms m => stateMin ms m.GetState) .C_STABLE_SYNC) ∧
    (∀ flows : List (Option SliceSlotMigration), (∀ f ∈ flows, f = none) →
      OutgoingMigrationGetState flows = .C_STABLE_SYNC) ∧
    (∀ m : SliceSlotMigration, m.state = .C_FULL_SYNC → m.snapshot_finished = true →
      m.GetState = .C_STABLE_SYNC) := by
  refine ⟨fun flows => outgoing_fold_filterMap flows _,
    fun flows h => outgoing_fold_all_none flows _ h, ?_⟩
  intro m h1 h2
  unfold SliceSlotMigration.GetState
  rw [if_pos ⟨h1, h2⟩]

/-- C10 witness: the theorem applied to concrete flow lists: all-null
flows report C_STABLE_SYNC and a finished full-sync flow reports
C_STABLE_SYNC. -/
theorem C10_outgoing_state_min_witness :
    OutgoingMigrationGetState [none, none] = .C_STABLE_SYNC ∧
    (SliceSlotMigration.mk .C_FULL_SYNC true).GetState = .C_STABLE_SYNC ∧
    OutgoingMigrationGetState
        [none, some ⟨.C_FULL_SYNC, true⟩, some ⟨.C_CONNECTING, false⟩] =
      (([none, some ⟨.C_FULL_SYNC, true⟩, some ⟨.C_CONNECTING, false⟩].filterMap
          (id : Option SliceSlotMigration → Option SliceSlotMigration)).foldl
        (fun ms m => stateMin ms m.GetState) .C_STABLE_SYNC) :=
  ⟨C10_outgoing_state_min.2.1 [none, none] (by decide),
   C10_outgoing_state_min.2.2 ⟨.C_FULL_SYNC, true⟩ (by decide) (by decide),
   C10_outgoing_state_min.1 [none, some ⟨.C_FULL_SYNC, true⟩, some ⟨.C_CONNECTING, false⟩]⟩

end Dragonfly
